import Mathlib

/-!
Verification of the dependency-resolution and plugin-lifecycle core of the
LibriaForge plugin-loader.

The definitions below are a shallow embedding of the TypeScript sources:
  * `src/helpers/topological-sort.ts`  → `mapGet`, `visit`, `visitDeps`,
    `visitRoots`, `topologicalSort`
  * `src/default-plugin-context.ts`    → `DefaultPluginContext` and its methods
  * `src/plugin-manager.ts`            → `PluginManager` state and operations

Mutable `Map`/`Set` objects become explicit state records, `throw` becomes an
`Except` error value, and asynchronous lifecycle hooks become data describing
the hook's observable outcome (absent, returns, or throws).  The recursion of
`visit` is expressed with a fuel parameter; fuel `packages.length + 1` is shown
sufficient (`visitRoots_ne_none`), so the out-of-fuel branch is unreachable.
-/

namespace PluginLoader

instance {α β : Type} [DecidableEq α] [DecidableEq β] : DecidableEq (Except α β) :=
  fun x y =>
    match x, y with
    | .error a, .error b =>
      if h : a = b then .isTrue (by rw [h]) else .isFalse (by intro hc; cases hc; exact h rfl)
    | .ok a, .ok b =>
      if h : a = b then .isTrue (by rw [h]) else .isFalse (by intro hc; cases hc; exact h rfl)
    | .error _, .ok _ => .isFalse (by intro hc; cases hc)
    | .ok _, .error _ => .isFalse (by intro hc; cases hc)

/-- One entry of a manifest's `dependencies` array: `{ id, version }`
(`version` is a range expression such as `^1.0.0`). -/
structure Dep where
  id : String
  version : String
  deriving DecidableEq, Repr

/-- `PluginManifest` from `src/types.ts` (the module/main entry-point fields are
opaque payload never read by the resolution and lifecycle code modelled here). -/
structure Manifest where
  id : String
  name : Option String := none
  pluginType : String := "test"
  version : String
  description : Option String := none
  dependencies : List Dep := []
  __dir : String := ""
  deriving DecidableEq, Repr

/-- The three structured resolution errors of `src/types.ts`
(`CircularDependencyError`, `DependencyNotFoundError`, `VersionMismatchError`)
with their carried fields. -/
inductive SortError where
  | circularDependency (cycle : List String)
  | dependencyNotFound (dependencyId : String) (requestedBy : Option String)
  | versionMismatch (packageId actualVersion requiredVersion : String)
      (requestedBy : Option String)
  deriving DecidableEq, Repr

/-- The mutable state of one `topologicalSort` run: the `sorted` output array
and the `visiting` / `visited` sets (as lists used with set semantics). -/
structure SortState where
  sorted : List Manifest
  visiting : List String
  visited : List String
  deriving DecidableEq, Repr

/-- `new Map(packages.map(pkg => [pkg.id, pkg]))`: a JavaScript `Map` built from
an entry list keeps, for each key, the **last** entry with that key. -/
def mapGet (packages : List Manifest) (id : String) : Option Manifest :=
  packages.reverse.find? (fun p => p.id == id)

/-- The `for (const dep of pkg.dependencies)` loop inside `visit`, parametric in
the recursive call (`visitF` is `visit` at the next fuel level). -/
def visitDeps
    (visitF : String → Option String → List String → SortState →
      Option (Except SortError SortState)) :
    List Dep → List String → SortState → Option (Except SortError SortState)
  | [], _, st => some (.ok st)
  | d :: ds, path, st =>
    match visitF d.id (some d.version) path st with
    | none => none
    | some (.error e) => some (.error e)
    | some (.ok st') => visitDeps visitF ds path st'

/-- The tail of `visit` after every error check passed: mark `id` in-progress,
visit its dependencies with the extended path, then unmark it, mark it done
and push its descriptor on `sorted`.  `visitF` is `visit` at the next fuel
level. -/
def visitCont
    (visitF : String → Option String → List String → SortState →
      Option (Except SortError SortState))
    (id : String) (pkg : Manifest) (path : List String) (st : SortState) :
    Option (Except SortError SortState) :=
  match visitDeps visitF pkg.dependencies (path ++ [id])
      { st with visiting := id :: st.visiting } with
  | none => none
  | some (.error e) => some (.error e)
  | some (.ok st2) =>
    some (.ok { sorted := st2.sorted ++ [pkg],
                visiting := st2.visiting.erase id,
                visited := id :: st2.visited })

/-- The inner `visit(id, requiredVersion?, path)` closure of `topologicalSort`.
`none` means the fuel ran out (never happens for fuel `> packages.length`,
see `visitRoots_ne_none`).  Branches in source order: the *done* check with its
re-validation of the required range, the *in-progress* (cycle) check, the map
lookup, the range check, then the recursive traversal (`visitCont`).
A JavaScript `if (requiredVersion)` is falsy both for `undefined` and for the
empty string, hence the `r ≠ ""` guards; `path[path.length - 1]` is
`undefined` on an empty path, hence `path.getLast?`. -/
def visit (sat : String → String → Bool) (pmap : String → Option Manifest) :
    Nat → String → Option String → List String → SortState →
    Option (Except SortError SortState)
  | 0, _, _, _, _ => none
  | fuel + 1, id, requiredVersion, path, st =>
    if id ∈ st.visited then
      match requiredVersion with
      | some r =>
        if r ≠ "" then
          match pmap id with
          | some pkg =>
            if sat pkg.version r then
              some (.ok st)
            else
              some (.error (.versionMismatch id pkg.version r path.getLast?))
          | none => some (.ok st)
        else some (.ok st)
      | none => some (.ok st)
    else if id ∈ st.visiting then
      some (.error (.circularDependency ((path ++ [id]).drop (path.indexOf id))))
    else
      match pmap id with
      | none => some (.error (.dependencyNotFound id path.getLast?))
      | some pkg =>
        match requiredVersion with
        | some r =>
          if r ≠ "" ∧ ¬ sat pkg.version r then
            some (.error (.versionMismatch id pkg.version r path.getLast?))
          else visitCont (visit sat pmap fuel) id pkg path st
        | none => visitCont (visit sat pmap fuel) id pkg path st

/-- The top-level `for (const pkg of packages) visit(pkg.id)` loop. -/
def visitRoots (sat : String → String → Bool) (pmap : String → Option Manifest)
    (fuel : Nat) : List Manifest → SortState → Option (Except SortError SortState)
  | [], st => some (.ok st)
  | p :: ps, st =>
    match visit sat pmap fuel p.id none [] st with
    | none => none
    | some (.error e) => some (.error e)
    | some (.ok st') => visitRoots sat pmap fuel ps st'

/-- `topologicalSort(packages)` from `src/helpers/topological-sort.ts`,
parametric in the external `semver.satisfies` collaborator `sat`.
Fuel `packages.length + 1` bounds the recursion depth of `visit`, which never
exceeds the number of distinct ids plus one (`visitRoots_ne_none` below shows
the `none` fallback branch is unreachable). -/
def topologicalSort (sat : String → String → Bool) (packages : List Manifest) :
    Except SortError (List Manifest) :=
  match visitRoots sat (mapGet packages) (packages.length + 1) packages ⟨[], [], []⟩ with
  | some (.ok st) => .ok st.sorted
  | some (.error e) => .error e
  | none => .ok []

/-- The dependency graph declared by a descriptor list: `a → b` when some
listed descriptor has id `a` and declares a dependency on id `b`. -/
def DepEdge (packages : List Manifest) (a b : String) : Prop :=
  ∃ p ∈ packages, p.id = a ∧ ∃ d ∈ p.dependencies, d.id = b

instance (packages : List Manifest) (a b : String) :
    Decidable (DepEdge packages a b) := by
  unfold DepEdge; infer_instance

/-! ### The version matcher collaborator

Everything here works on `List Char` with structural recursion so that concrete
range checks evaluate inside the kernel. -/

/-- Split a character list on a separator character. -/
def splitOnChar (c : Char) : List Char → List (List Char)
  | [] => [[]]
  | x :: xs =>
    if x = c then [] :: splitOnChar c xs
    else
      match splitOnChar c xs with
      | [] => [[x]]
      | g :: gs => (x :: g) :: gs

/-- Parse a non-empty all-digit character list as a decimal number. -/
def digitsToNat : List Char → Option Nat
  | [] => none
  | cs => go cs 0
where
  go : List Char → Nat → Option Nat
    | [], acc => some acc
    | c :: cs, acc =>
      if c.isDigit then go cs (acc * 10 + (c.toNat - '0'.toNat)) else none

/-- Core `M.m.p` triple of a semantic version string, ignoring pre-release and
build-metadata suffixes. -/
def parseVersion (s : String) : Option (Nat × Nat × Nat) :=
  let core := s.data.takeWhile (fun ch => ch ≠ '-' ∧ ch ≠ '+')
  match splitOnChar '.' core with
  | [a, b, c] =>
    match digitsToNat a, digitsToNat b, digitsToNat c with
    | some x, some y, some z => some (x, y, z)
    | _, _, _ => none
  | _ => none

/-- Strict lexicographic order on version triples. -/
def verLt : Nat × Nat × Nat → Nat × Nat × Nat → Bool
  | (a, b, c), (d, e, f) => a < d || (a == d && (b < e || (b == e && c < f)))

/-- Non-strict lexicographic order on version triples. -/
def verLe (v w : Nat × Nat × Nat) : Bool := verLt v w || v == w

/-- One comparator of a comparator range, e.g. `>=1.0.0` or `<2.0.0`. -/
def checkComparator (v : Nat × Nat × Nat) (comp : List Char) : Bool :=
  match comp with
  | '>' :: '=' :: rest =>
    match parseVersion (String.mk rest) with
    | some w => verLe w v
    | none => false
  | '<' :: '=' :: rest =>
    match parseVersion (String.mk rest) with
    | some w => verLe v w
    | none => false
  | '>' :: rest =>
    match parseVersion (String.mk rest) with
    | some w => verLt w v
    | none => false
  | '<' :: rest =>
    match parseVersion (String.mk rest) with
    | some w => verLt v w
    | none => false
  | '=' :: rest =>
    match parseVersion (String.mk rest) with
    | some w => v == w
    | none => false
  | rest =>
    match parseVersion (String.mk rest) with
    | some w => v == w
    | none => false

/-- Modelled from the spec: the source delegates range checking to the external
`semver` npm package (`semver.satisfies`), whose code is not part of this
repository.  Following spec §4.1, this matcher accepts exact versions, caret
ranges (`^1.0.0`: same major, or same minor when the major is 0), tilde ranges
(`~1.2.0`: same minor), space-separated comparator ranges (`>=1.0.0 <2.0.0`)
and the wildcard `*`. -/
def satisfiesSpec (version range : String) : Bool :=
  if range = "*" then true
  else
    match parseVersion version with
    | none => false
    | some v =>
      match range.data with
      | '^' :: rest =>
        match parseVersion (String.mk rest) with
        | some (x, y, z) =>
          if 0 < x then v.1 == x && verLe (x, y, z) v
          else v.1 == 0 && v.2.1 == y && verLe (0, y, z) v
        | none => false
      | '~' :: rest =>
        match parseVersion (String.mk rest) with
        | some (x, y, z) => v.1 == x && v.2.1 == y && verLe (x, y, z) v
        | none => false
      | cs =>
        ((splitOnChar ' ' cs).filter (fun c => c ≠ [])).all (checkComparator v)

/-! ### The plugin registry (`src/default-plugin-context.ts`) and the
lifecycle coordinator (`src/plugin-manager.ts`)

A lifecycle hook (`onLoad` / `onUnload`) is modelled by its observable outcome:
`none` when the instance declares no such hook, `some (.ok ())` when the hook
is declared and completes, `some (.error msg)` when it is declared and throws.
Each operation returns the list of lifecycle events it fired (in order), the
resulting state, and `Except` capturing a thrown error; thrown errors do not
roll back mutations already performed, exactly as in the source. -/

/-- A loaded plugin instance (`LibriaPlugin`): an opaque public API surface plus
the two optional lifecycle hooks. -/
structure LibriaPlugin where
  api : String
  onLoad : Option (Except String Unit) := none
  onUnload : Option (Except String Unit) := none
  deriving DecidableEq, Repr

/-- `PluginMetadata` from `src/types.ts`: the snapshot stored at registration. -/
structure PluginMetadata where
  id : String
  name : Option String
  pluginType : String
  version : String
  description : Option String
  dependencies : List Dep
  dir : String
  deriving DecidableEq, Repr

/-- One registry entry (`RegisteredPlugin` in `src/default-plugin-context.ts`). -/
structure RegisteredPlugin where
  plugin : LibriaPlugin
  metadata : PluginMetadata
  deriving DecidableEq, Repr

/-- Errors thrown by the registry and the lifecycle coordinator, plus the
observable outcomes of collaborator failures (module loader, factory `create`,
lifecycle hooks). -/
inductive PluginError where
  | duplicatePlugin (id : String)
  | pluginNotFound (id : String)
  | manifestNotFound (id dir : String)
  | sortError (e : SortError)
  | loadError (id : String)
  | createFailure (msg : String)
  | hookFailure (msg : String)
  deriving DecidableEq, Repr

/-- `DefaultPluginContext`: the insertion-ordered id → RegisteredPlugin map. -/
structure DefaultPluginContext where
  plugins : List (String × RegisteredPlugin)
  deriving DecidableEq, Repr

namespace DefaultPluginContext

/-- `this.plugins.get(id)`. -/
def getEntry (ctx : DefaultPluginContext) (id : String) : Option RegisteredPlugin :=
  (ctx.plugins.find? (fun e => e.1 == id)).map Prod.snd

/-- `register(id, plugin, metadata)`: throws `DuplicatePluginError` when the id
is present, otherwise inserts.  The returned context is the state after the
call; on a throw the state is unchanged. -/
def register (ctx : DefaultPluginContext) (id : String) (plugin : LibriaPlugin)
    (metadata : PluginMetadata) : Except PluginError Unit × DefaultPluginContext :=
  if (ctx.plugins.find? (fun e => e.1 == id)).isSome then
    (.error (.duplicatePlugin id), ctx)
  else
    (.ok (), ⟨ctx.plugins ++ [(id, ⟨plugin, metadata⟩)]⟩)

/-- `unregister(id)`: removes and returns the stored instance when present;
returns `undefined` (here `none`) without failing when absent. -/
def unregister (ctx : DefaultPluginContext) (id : String) :
    Option LibriaPlugin × DefaultPluginContext :=
  match ctx.getEntry id with
  | some registered => (some registered.plugin, ⟨ctx.plugins.filter (fun e => ¬ e.1 = id)⟩)
  | none => (none, ctx)

/-- `getPlugin(id)`: the public API, or a `PluginNotFoundError` throw. -/
def getPlugin (ctx : DefaultPluginContext) (id : String) : Except PluginError String :=
  match ctx.getEntry id with
  | some registered => .ok registered.plugin.api
  | none => .error (.pluginNotFound id)

/-- `hasPlugin(id)`. -/
def hasPlugin (ctx : DefaultPluginContext) (id : String) : Bool :=
  (ctx.plugins.find? (fun e => e.1 == id)).isSome

/-- `getPluginInstance(id)`: the full instance with its lifecycle hooks. -/
def getPluginInstance (ctx : DefaultPluginContext) (id : String) : Option LibriaPlugin :=
  (ctx.getEntry id).map RegisteredPlugin.plugin

/-- `getPluginMetadata(id)`. -/
def getPluginMetadata (ctx : DefaultPluginContext) (id : String) : Option PluginMetadata :=
  (ctx.getEntry id).map RegisteredPlugin.metadata

/-- `getPluginIds()`. -/
def getPluginIds (ctx : DefaultPluginContext) : List String :=
  ctx.plugins.map Prod.fst

/-- `getPluginsByType(pluginType)`: matching metadata in registration order. -/
def getPluginsByType (ctx : DefaultPluginContext) (pluginType : String) :
    List PluginMetadata :=
  ((ctx.plugins.map (fun e => e.2.metadata)).filter (fun m => m.pluginType == pluginType))

/-- `getAllMetadata()`. -/
def getAllMetadata (ctx : DefaultPluginContext) : List PluginMetadata :=
  ctx.plugins.map (fun e => e.2.metadata)

end DefaultPluginContext

/-- The constructible factory produced by the module-loader collaborator
(`loadPlugin`); `create` is modelled by its observable outcome. -/
structure PluginFactory where
  id : String
  pluginType : String
  name : Option String := none
  create : Except String LibriaPlugin
  deriving DecidableEq, Repr

/-- The module-loader collaborator (`loadPlugin` from `src/load-plugin.ts`,
out-of-scope I/O): maps a manifest to a factory or a load failure. -/
def Loader : Type := Manifest → Except PluginError PluginFactory

/-- The manifest-discovery collaborator (`findPlugins`, out-of-scope I/O):
maps a directory to the manifests found there. -/
def Discover : Type := String → List Manifest

/-- Lifecycle events, in firing order: `factory.create` invoked, registry
insertion performed, `onLoad` hook invoked, `onUnload` hook invoked. -/
inductive Event where
  | created (id : String)
  | registered (id : String)
  | onLoadCalled (id : String)
  | onUnloadCalled (id : String)
  deriving DecidableEq, Repr

/-- `PluginManager` private state: the registry and the `manifests` map
(insertion-ordered, like a JavaScript `Map`). -/
structure ManagerState where
  context : DefaultPluginContext
  manifests : List (String × Manifest)
  deriving DecidableEq, Repr

/-- JavaScript `Map.prototype.set`: update in place when the key exists
(keeping its position), append otherwise. -/
def mapSet {α : Type} : List (String × α) → String → α → List (String × α)
  | [], k, v => [(k, v)]
  | e :: es, k, v => if e.1 = k then (k, v) :: es else e :: mapSet es k v

/-- JavaScript `Map.prototype.get` as an association-list lookup. -/
def mapLookup {α : Type} (l : List (String × α)) (k : String) : Option α :=
  (l.find? (fun e => e.1 == k)).map Prod.snd

/-- JavaScript `Map.prototype.delete`. -/
def mapDelete {α : Type} (l : List (String × α)) (k : String) : List (String × α) :=
  l.filter (fun e => ¬ e.1 = k)

/-- `manifestToMetadata` from `src/plugin-manager.ts`. -/
def manifestToMetadata (manifest : Manifest) : PluginMetadata :=
  { id := manifest.id
    name := manifest.name
    pluginType := manifest.pluginType
    version := manifest.version
    description := manifest.description
    dependencies := manifest.dependencies
    dir := manifest.__dir }

/-- Run a lifecycle hook outcome: absent hooks are skipped, a throwing hook
propagates as a `hookFailure`. -/
def runHook : Option (Except String Unit) → Except PluginError Unit
  | none => .ok ()
  | some (.ok ()) => .ok ()
  | some (.error msg) => .error (.hookFailure msg)

/-- `loadSinglePlugin(manifest)`: load the factory, `create` the instance,
register it, record the manifest, then invoke and await `onLoad`.  Returns the
fired events, the state after the call (mutations before a throw persist), and
the thrown error if any. -/
def loadSinglePlugin (loader : Loader) (manifest : Manifest) (st : ManagerState) :
    List Event × ManagerState × Except PluginError Unit :=
  match loader manifest with
  | .error e => ([], st, .error e)
  | .ok factory =>
    match factory.create with
    | .error msg => ([.created manifest.id], st, .error (.createFailure msg))
    | .ok plugin =>
      let metadata := manifestToMetadata manifest
      match st.context.register manifest.id plugin metadata with
      | (.error e, _) => ([.created manifest.id], st, .error e)
      | (.ok (), ctx') =>
        let st' : ManagerState :=
          { context := ctx', manifests := mapSet st.manifests manifest.id manifest }
        match plugin.onLoad with
        | none => ([.created manifest.id, .registered manifest.id], st', .ok ())
        | some hook =>
          ([.created manifest.id, .registered manifest.id, .onLoadCalled manifest.id],
            st', runHook (some hook))

/-- The `for (const manifest of sortedManifests)` loop of `loadPlugins`:
sequential loads, aborting on the first failure (already-loaded plugins in the
batch stay loaded). -/
def loadSeq (loader : Loader) : List Manifest → ManagerState →
    List Event × ManagerState × Except PluginError Unit
  | [], st => ([], st, .ok ())
  | m :: ms, st =>
    match loadSinglePlugin loader m st with
    | (tr, st', .error e) => (tr, st', .error e)
    | (tr, st', .ok ()) =>
      match loadSeq loader ms st' with
      | (tr', st'', r) => (tr ++ tr', st'', r)

/-- `loadPlugins`: resolve the combined discovered manifests with
`topologicalSort`, then load them in the sorted order.  The discovery loop
over patterns is the out-of-scope `findPlugins` collaborator; its combined
result is the `allManifests` argument. -/
def loadPlugins (sat : String → String → Bool) (loader : Loader)
    (allManifests : List Manifest) (st : ManagerState) :
    List Event × ManagerState × Except PluginError Unit :=
  match topologicalSort sat allManifests with
  | .error e => ([], st, .error (.sortError e))
  | .ok sortedManifests => loadSeq loader sortedManifests st

/-- `unloadSinglePlugin(id)`: fetch the instance, invoke and await `onUnload`
(a throw aborts before the registry and manifest removal), then unregister and
drop the manifest. -/
def unloadSinglePlugin (id : String) (st : ManagerState) :
    List Event × ManagerState × Except PluginError Unit :=
  let plugin := st.context.getPluginInstance id
  let hookEvents : List Event :=
    match plugin with
    | some p => match p.onUnload with
      | some _ => [.onUnloadCalled id]
      | none => []
    | none => []
  match plugin with
  | some p =>
    match runHook p.onUnload with
    | .error e => (hookEvents, st, .error e)
    | .ok () =>
      (hookEvents,
        { context := (st.context.unregister id).2,
          manifests := mapDelete st.manifests id }, .ok ())
  | none =>
    (hookEvents,
      { context := (st.context.unregister id).2,
        manifests := mapDelete st.manifests id }, .ok ())

/-- `unloadPlugin(id)`: public unload, throwing `PluginNotFoundError` for an
id that is not loaded. -/
def unloadPlugin (id : String) (st : ManagerState) :
    List Event × ManagerState × Except PluginError Unit :=
  if st.context.hasPlugin id then unloadSinglePlugin id st
  else ([], st, .error (.pluginNotFound id))

/-- `reloadPlugin(id)`: look up the stored manifest (`PluginNotFoundError` when
absent), unload the old instance, re-discover the manifest from the stored
directory (`ManifestNotFoundError` when none is found), then load the fresh
descriptor.  Module-cache invalidation (`clearPluginCache`) has no observable
effect in this model. -/
def reloadPlugin (loader : Loader) (discover : Discover) (id : String)
    (st : ManagerState) : List Event × ManagerState × Except PluginError Unit :=
  match mapLookup st.manifests id with
  | none => ([], st, .error (.pluginNotFound id))
  | some manifest =>
    match unloadSinglePlugin id st with
    | (tr, st', .error e) => (tr, st', .error e)
    | (tr, st', .ok ()) =>
      match discover manifest.__dir with
      | [] => (tr, st', .error (.manifestNotFound id manifest.__dir))
      | newManifest :: _ =>
        match loadSinglePlugin loader newManifest st' with
        | (tr2, st'', r) => (tr ++ tr2, st'', r)

/-- The unload loop of `shutdown` over a snapshot of ids. -/
def unloadSeq : List String → ManagerState →
    List Event × ManagerState × Except PluginError Unit
  | [], st => ([], st, .ok ())
  | id :: ids, st =>
    match unloadSinglePlugin id st with
    | (tr, st', .error e) => (tr, st', .error e)
    | (tr, st', .ok ()) =>
      match unloadSeq ids st' with
      | (tr', st'', r) => (tr ++ tr', st'', r)

/-- `shutdown()`: unload every loaded plugin in the reverse of the `manifests`
insertion (= load) order. -/
def shutdown (st : ManagerState) : List Event × ManagerState × Except PluginError Unit :=
  unloadSeq (st.manifests.map Prod.fst).reverse st

/-! ## Properties of the resolver

The development below establishes the invariants of one `topologicalSort` run:
`GoodSt` is the state invariant of the traversal, `rem` the fuel measure, and
`visit_spec` / `visit_succeeds` / `visit_no_error` the three main inductions
(state preservation, success on well-formed acyclic inputs, and error
classification). -/

/-- The id list of a descriptor list. -/
def keysOf (packages : List Manifest) : List String :=
  packages.map (fun p => p.id)

theorem mapGet_eq_some {packages : List Manifest} {id : String} {p : Manifest}
    (h : mapGet packages id = some p) : p.id = id ∧ p ∈ packages := by
  unfold mapGet at h
  rcases Option.mem_def.mpr h with hm
  constructor
  · have := List.find?_some h
    simpa using this
  · have := List.mem_of_find?_eq_some h
    simpa using this

theorem mapGet_isSome_iff {packages : List Manifest} {id : String} :
    (mapGet packages id).isSome ↔ id ∈ keysOf packages := by
  unfold mapGet keysOf
  rw [List.find?_isSome]
  constructor
  · rintro ⟨p, hp, hpid⟩
    exact List.mem_map.mpr ⟨p, List.mem_reverse.mp hp, by simpa using hpid⟩
  · rintro hmem
    rcases List.mem_map.mp hmem with ⟨p, hp, hpid⟩
    exact ⟨p, List.mem_reverse.mpr hp, by simpa using hpid⟩

theorem mapGet_self_of_nodup {packages : List Manifest}
    (hnd : (keysOf packages).Nodup) {p : Manifest} (hp : p ∈ packages) :
    mapGet packages p.id = some p := by
  have hsome : (mapGet packages p.id).isSome :=
    mapGet_isSome_iff.mpr (List.mem_map.mpr ⟨p, hp, rfl⟩)
  rcases Option.isSome_iff_exists.mp hsome with ⟨q, hq⟩
  rcases mapGet_eq_some hq with ⟨hqid, hqmem⟩
  have : q = p := List.inj_on_of_nodup_map hnd hqmem hp hqid
  rw [hq, this]

/-- Fuel measure: the number of distinct ids not currently in-progress. -/
def rem (packages : List Manifest) (st : SortState) : Nat :=
  ((keysOf packages).dedup.filter (fun k => decide (k ∉ st.visiting))).length

/-- Every dependency edge of an element of `sorted` points to a strictly
earlier element of `sorted`. -/
def Closed (sorted : List Manifest) : Prop :=
  ∀ i, ∀ hi : i < sorted.length, ∀ d ∈ sorted[i].dependencies,
    ∃ j, ∃ hj : j < sorted.length, j < i ∧ sorted[j].id = d.id

/-- The state invariant of a `topologicalSort` traversal. -/
structure GoodSt (packages : List Manifest) (st : SortState) : Prop where
  sorted_map : ∀ p ∈ st.sorted, mapGet packages p.id = some p
  sorted_nodup : (st.sorted.map (fun p => p.id)).Nodup
  visited_iff : ∀ i, i ∈ st.visited ↔ i ∈ st.sorted.map (fun p => p.id)
  closed : Closed st.sorted
  visiting_nodup : st.visiting.Nodup
  visiting_keys : ∀ v ∈ st.visiting, v ∈ keysOf packages
  visiting_fresh : ∀ v ∈ st.visiting, v ∉ st.visited

/-- What a successful `visit id` call guarantees about the state transition. -/
structure VisitOk (packages : List Manifest) (st st' : SortState) (id : String) : Prop where
  good : GoodSt packages st'
  visiting_eq : st'.visiting = st.visiting
  visited_mono : ∀ i ∈ st.visited, i ∈ st'.visited
  sorted_ext : ∃ Δ, st'.sorted = st.sorted ++ Δ
  mem_visited : id ∈ st'.visited

theorem GoodSt.init (packages : List Manifest) : GoodSt packages ⟨[], [], []⟩ := by
  refine ⟨?_, ?_, ?_, ?_, ?_, ?_, ?_⟩ <;> simp [Closed]

theorem Closed.push {sorted : List Manifest} {pkg : Manifest}
    (hc : Closed sorted)
    (hdeps : ∀ d ∈ pkg.dependencies, d.id ∈ sorted.map (fun p => p.id)) :
    Closed (sorted ++ [pkg]) := by
  intro i hi d hd
  by_cases hlt : i < sorted.length
  · have hget : (sorted ++ [pkg])[i] = sorted[i] := List.getElem_append_left hlt
    rw [hget] at hd
    rcases hc i hlt d hd with ⟨j, hj, hji, hjid⟩
    refine ⟨j, by simp; omega, hji, ?_⟩
    rw [List.getElem_append_left hj]
    exact hjid
  · have hlen : i = sorted.length := by
      have : i < sorted.length + 1 := by simpa using hi
      omega
    subst hlen
    have hget : (sorted ++ [pkg])[sorted.length] = pkg := by
      simp
    rw [hget] at hd
    rcases List.mem_map.mp (hdeps d hd) with ⟨q, hq, hqid⟩
    rcases List.getElem_of_mem hq with ⟨j, hj, hjq⟩
    refine ⟨j, by simp; omega, hj, ?_⟩
    rw [List.getElem_append_left hj, hjq]
    exact hqid

theorem filter_notMem_cons_length {l v : List String} {id : String}
    (hl : l.Nodup) (hid : id ∈ l) (hv : id ∉ v) :
    (l.filter (fun k => decide (k ∉ id :: v))).length + 1 =
    (l.filter (fun k => decide (k ∉ v))).length := by
  induction l with
  | nil => cases hid
  | cons a l ih =>
    rcases List.nodup_cons.mp hl with ⟨ha, hl'⟩
    by_cases hai : a = id
    · subst hai
      have h1 : List.filter (fun k => decide (k ∉ a :: v)) (a :: l) =
          List.filter (fun k => decide (k ∉ a :: v)) l := by
        simp [List.filter_cons]
      have h2 : List.filter (fun k => decide (k ∉ v)) (a :: l) =
          a :: List.filter (fun k => decide (k ∉ v)) l := by
        simp [List.filter_cons, hv]
      rw [h1, h2]
      simp only [List.length_cons, Nat.add_right_cancel_iff]
      have hfeq : List.filter (fun k => decide (k ∉ a :: v)) l =
          List.filter (fun k => decide (k ∉ v)) l := by
        apply List.filter_congr
        intro k hk
        have hka : k ≠ a := fun h => ha (h ▸ hk)
        simp [hka]
      rw [hfeq]
    · have hid' : id ∈ l := by
        rcases List.mem_cons.mp hid with h | h
        · exact absurd h.symm hai
        · exact h
      have hmemiff : (a ∉ id :: v) ↔ (a ∉ v) := by
        simp [hai]
      by_cases hav : a ∈ v
      · have h1 : List.filter (fun k => decide (k ∉ id :: v)) (a :: l) =
            List.filter (fun k => decide (k ∉ id :: v)) l := by
          simp [List.filter_cons, hav, hai]
        have h2 : List.filter (fun k => decide (k ∉ v)) (a :: l) =
            List.filter (fun k => decide (k ∉ v)) l := by
          simp [List.filter_cons, hav]
        rw [h1, h2]
        exact ih hl' hid'
      · have h1 : List.filter (fun k => decide (k ∉ id :: v)) (a :: l) =
            a :: List.filter (fun k => decide (k ∉ id :: v)) l := by
          simp [List.filter_cons, hav, hai]
        have h2 : List.filter (fun k => decide (k ∉ v)) (a :: l) =
            a :: List.filter (fun k => decide (k ∉ v)) l := by
          simp [List.filter_cons, hav]
        rw [h1, h2]
        simp only [List.length_cons]
        have := ih hl' hid'
        omega

theorem rem_cons {packages : List Manifest} {st : SortState} {id : String}
    (hk : id ∈ keysOf packages) (hnv : id ∉ st.visiting) :
    rem packages { st with visiting := id :: st.visiting } + 1 = rem packages st :=
  filter_notMem_cons_length (keysOf packages).nodup_dedup (List.mem_dedup.mpr hk) hnv

theorem rem_congr {packages : List Manifest} {st st' : SortState}
    (h : st'.visiting = st.visiting) : rem packages st' = rem packages st := by
  simp [rem, h]

theorem GoodSt.consVisiting {packages : List Manifest} {st : SortState}
    (g : GoodSt packages st) {id : String} (hnv : id ∉ st.visiting)
    (hnd : id ∉ st.visited) (hk : id ∈ keysOf packages) :
    GoodSt packages { st with visiting := id :: st.visiting } := by
  refine ⟨g.sorted_map, g.sorted_nodup, g.visited_iff, g.closed, ?_, ?_, ?_⟩
  · exact List.nodup_cons.mpr ⟨hnv, g.visiting_nodup⟩
  · intro v hv
    rcases List.mem_cons.mp hv with h | h
    · exact h ▸ hk
    · exact g.visiting_keys v h
  · intro v hv
    rcases List.mem_cons.mp hv with h | h
    · exact h ▸ hnd
    · exact g.visiting_fresh v h

/-- The state built at the end of a successful `visitCont` satisfies the
invariant again, and the `visiting` set returns to its pre-call value. -/
theorem GoodSt.finish {packages : List Manifest} {st2 : SortState} {id : String}
    {v0 : List String} {pkg : Manifest}
    (g2 : GoodSt packages st2)
    (hvis : st2.visiting = id :: v0)
    (hnv : id ∉ v0)
    (hpkg : mapGet packages id = some pkg)
    (hdeps : ∀ d ∈ pkg.dependencies, d.id ∈ st2.visited) :
    GoodSt packages ⟨st2.sorted ++ [pkg], st2.visiting.erase id, id :: st2.visited⟩ ∧
      st2.visiting.erase id = v0 := by
  have hpkgid : pkg.id = id := (mapGet_eq_some hpkg).1
  have hidvg : id ∈ st2.visiting := by rw [hvis]; exact List.mem_cons_self id v0
  have hidnd : id ∉ st2.visited := g2.visiting_fresh id hidvg
  have hidns : id ∉ st2.sorted.map (fun p => p.id) :=
    fun h => hidnd ((g2.visited_iff id).mpr h)
  have herase : st2.visiting.erase id = v0 := by
    rw [hvis]; exact List.erase_cons_head id v0
  refine ⟨⟨?_, ?_, ?_, ?_, ?_, ?_, ?_⟩, herase⟩
  · intro p hp
    rcases List.mem_append.mp hp with h | h
    · exact g2.sorted_map p h
    · rcases List.mem_singleton.mp h with rfl
      rw [hpkgid]; exact hpkg
  · have : ((st2.sorted.map (fun p => p.id)).concat pkg.id).Nodup :=
      List.Nodup.concat (hpkgid ▸ hidns) g2.sorted_nodup
    simpa [List.concat_eq_append] using this
  · intro i
    simp only [List.map_append, List.map_cons, List.map_nil, List.mem_append,
      List.mem_singleton, hpkgid]
    rw [List.mem_cons]
    constructor
    · rintro (h | h)
      · exact Or.inr (by simpa using h)
      · exact Or.inl ((g2.visited_iff i).mp h)
    · rintro (h | h)
      · exact Or.inr ((g2.visited_iff i).mpr h)
      · exact Or.inl (by simpa using h)
  · exact g2.closed.push (fun d hd => (g2.visited_iff d.id).mp (hdeps d hd))
  · rw [herase]
    exact (hvis ▸ g2.visiting_nodup).of_cons
  · intro v hv
    rw [herase] at hv
    exact g2.visiting_keys v (by rw [hvis]; exact List.mem_cons_of_mem id hv)
  · intro v hv
    rw [herase] at hv
    intro hcon
    rcases List.mem_cons.mp hcon with h | h
    · exact hnv (h ▸ hv)
    · exact g2.visiting_fresh v (by rw [hvis]; exact List.mem_cons_of_mem id hv) h

/-- The contract a `visit`-shaped function satisfies: it does not run out of
fuel below `bound`, and a successful call preserves the invariant, preserves
the `visiting` set, only grows `visited` and `sorted`, and marks its id done. -/
def VisitSpec (packages : List Manifest) (bound : Nat)
    (visitF : String → Option String → List String → SortState →
      Option (Except SortError SortState)) : Prop :=
  ∀ id rv path st, GoodSt packages st →
    (rem packages st < bound → visitF id rv path st ≠ none) ∧
    (∀ st', visitF id rv path st = some (.ok st') → VisitOk packages st st' id)

theorem visitDeps_spec {packages : List Manifest} {bound : Nat}
    {visitF : String → Option String → List String → SortState →
      Option (Except SortError SortState)}
    (hF : VisitSpec packages bound visitF) :
    ∀ ds path st, GoodSt packages st →
      (rem packages st < bound → visitDeps visitF ds path st ≠ none) ∧
      (∀ st', visitDeps visitF ds path st = some (.ok st') →
        GoodSt packages st' ∧ st'.visiting = st.visiting ∧
        (∀ i ∈ st.visited, i ∈ st'.visited) ∧ (∃ Δ, st'.sorted = st.sorted ++ Δ) ∧
        ∀ d ∈ ds, d.id ∈ st'.visited) := by
  intro ds
  induction ds with
  | nil =>
    intro path st g
    constructor
    · intro _ h
      simp [visitDeps] at h
    · intro st' h
      simp only [visitDeps, Option.some.injEq, Except.ok.injEq] at h
      subst h
      exact ⟨g, rfl, fun i hi => hi, ⟨[], by simp⟩, by simp⟩
  | cons d ds ih =>
    intro path st g
    rcases hF d.id (some d.version) path st g with ⟨hne, hok⟩
    constructor
    · intro hrem hnone
      simp only [visitDeps] at hnone
      cases hv : visitF d.id (some d.version) path st with
      | none => exact hne hrem hv
      | some res =>
        rw [hv] at hnone
        cases res with
        | error e => simp at hnone
        | ok st1 =>
          rcases hok st1 hv with ⟨g1, hviseq, _, _, _⟩
          have hrem1 : rem packages st1 < bound := by
            rw [rem_congr hviseq]; exact hrem
          exact (ih path st1 g1).1 hrem1 hnone
    · intro st' h
      simp only [visitDeps] at h
      cases hv : visitF d.id (some d.version) path st with
      | none => rw [hv] at h; simp at h
      | some res =>
        rw [hv] at h
        cases res with
        | error e => simp at h
        | ok st1 =>
          rcases hok st1 hv with ⟨g1, hviseq, hmono1, ⟨D1, hD1⟩, hdone1⟩
          rcases (ih path st1 g1).2 st' h with ⟨g', hviseq', hmono', ⟨D2, hD2⟩, hds'⟩
          refine ⟨g', hviseq'.trans hviseq, fun i hi => hmono' i (hmono1 i hi),
            ⟨D1 ++ D2, by rw [hD2, hD1, List.append_assoc]⟩, ?_⟩
          intro e he
          rcases List.mem_cons.mp he with rfl | he'
          · exact hmono' e.id hdone1
          · exact hds' e he'


theorem visitCont_spec {packages : List Manifest} {sat : String → String → Bool}
    {fuel : Nat} (path : List String)
    (ih : VisitSpec packages fuel (visit sat (mapGet packages) fuel))
    {id : String} {pkg : Manifest} {st : SortState}
    (g : GoodSt packages st) (hvg : id ∉ st.visiting) (hvd : id ∉ st.visited)
    (hp : mapGet packages id = some pkg) :
    (rem packages st < fuel + 1 →
      visitCont (visit sat (mapGet packages) fuel) id pkg path st ≠ none) ∧
    (∀ st', visitCont (visit sat (mapGet packages) fuel) id pkg path st =
        some (.ok st') → VisitOk packages st st' id) := by
  have hk : id ∈ keysOf packages := mapGet_isSome_iff.mp (by rw [hp]; rfl)
  have g1 := g.consVisiting hvg hvd hk
  have hrem1 := rem_cons hk hvg
  have hd := visitDeps_spec ih pkg.dependencies (path ++ [id])
    { st with visiting := id :: st.visiting } g1
  constructor
  · intro hrem hnone
    unfold visitCont at hnone
    cases hv : visitDeps (visit sat (mapGet packages) fuel) pkg.dependencies
        (path ++ [id]) { st with visiting := id :: st.visiting } with
    | none => exact hd.1 (by omega) hv
    | some res =>
      rw [hv] at hnone
      cases res <;> simp at hnone
  · intro st' h
    unfold visitCont at h
    cases hv : visitDeps (visit sat (mapGet packages) fuel) pkg.dependencies
        (path ++ [id]) { st with visiting := id :: st.visiting } with
    | none => rw [hv] at h; simp at h
    | some res =>
      rw [hv] at h
      cases res with
      | error e => simp at h
      | ok st2 =>
        simp only [Option.some.injEq, Except.ok.injEq] at h
        subst h
        rcases hd.2 st2 hv with ⟨g2, hviseq, hmono, ⟨D, hD⟩, hdeps⟩
        rcases GoodSt.finish g2 (by simpa using hviseq) hvg hp hdeps with ⟨g3, herase⟩
        refine ⟨g3, by simpa using herase, ?_, ?_, ?_⟩
        · intro i hi
          exact List.mem_cons_of_mem id (hmono i hi)
        · exact ⟨D ++ [pkg], by simp only [hD]; simp⟩
        · exact List.mem_cons_self id st2.visited

theorem visit_spec (packages : List Manifest) (sat : String → String → Bool) :
    ∀ fuel, VisitSpec packages fuel (visit sat (mapGet packages) fuel) := by
  intro fuel
  induction fuel with
  | zero =>
    intro id rv path st g
    refine ⟨fun hrem => absurd hrem (Nat.not_lt_zero _), fun st' h => ?_⟩
    simp [visit] at h
  | succ fuel ih =>
    intro id rv path st g
    by_cases hvd : id ∈ st.visited
    · -- done branch: the result is `some`, and an `ok` result leaves the state
      -- unchanged
      have hok : ∀ st', visit sat (mapGet packages) (fuel + 1) id rv path st =
          some (.ok st') → st' = st := by
        intro st' h
        simp only [visit, if_pos hvd] at h
        rcases rv with _ | r
        · simpa using h.symm
        · by_cases hr : r = ""
          · simp [hr] at h
            exact h.symm
          · simp only [hr, ne_eq, not_false_eq_true, if_true] at h
            cases hp : mapGet packages id with
            | none => rw [hp] at h; simpa using h.symm
            | some pkg =>
              rw [hp] at h
              by_cases hs : sat pkg.version r
              · simp [hs] at h; exact h.symm
              · simp [hs] at h
      have hne : visit sat (mapGet packages) (fuel + 1) id rv path st ≠ none := by
        intro h
        simp only [visit, if_pos hvd] at h
        rcases rv with _ | r
        · simp at h
        · by_cases hr : r = ""
          · simp [hr] at h
          · simp only [hr, ne_eq, not_false_eq_true, if_true] at h
            cases hp : mapGet packages id with
            | none => rw [hp] at h; simp at h
            | some pkg =>
              rw [hp] at h
              by_cases hs : sat pkg.version r
              · simp [hs] at h
              · simp [hs] at h
      refine ⟨fun _ => hne, fun st' h => ?_⟩
      rcases hok st' h with rfl
      exact ⟨g, rfl, fun i hi => hi, ⟨[], by simp⟩, hvd⟩
    · by_cases hvg : id ∈ st.visiting
      · -- in-progress: the cycle error
        have heq : visit sat (mapGet packages) (fuel + 1) id rv path st =
            some (.error (.circularDependency ((path ++ [id]).drop (path.indexOf id)))) := by
          simp [visit, hvd, hvg]
        refine ⟨fun _ h => (by rw [heq] at h; cases h), fun st' h => ?_⟩
        rw [heq] at h
        simp at h
      · cases hp : mapGet packages id with
        | none =>
          have heq : visit sat (mapGet packages) (fuel + 1) id rv path st =
              some (.error (.dependencyNotFound id path.getLast?)) := by
            simp [visit, hvd, hvg, hp]
          refine ⟨fun _ h => (by rw [heq] at h; cases h), fun st' h => ?_⟩
          rw [heq] at h
          simp at h
        | some pkg =>
          have hc := visitCont_spec path ih g hvg hvd hp
          rcases rv with _ | r
          · have heq : visit sat (mapGet packages) (fuel + 1) id none path st =
                visitCont (visit sat (mapGet packages) fuel) id pkg path st := by
              simp [visit, hvd, hvg, hp]
            rw [heq]
            exact ⟨hc.1, hc.2⟩
          · by_cases hmm : r ≠ "" ∧ ¬ sat pkg.version r
            · have heq : visit sat (mapGet packages) (fuel + 1) id (some r) path st =
                  some (.error (.versionMismatch id pkg.version r path.getLast?)) := by
                simp only [visit, if_neg hvd, if_neg hvg]
                rw [hp]
                simp [hmm]
              refine ⟨fun _ h => (by rw [heq] at h; cases h), fun st' h => ?_⟩
              rw [heq] at h
              simp at h
            · have heq : visit sat (mapGet packages) (fuel + 1) id (some r) path st =
                  visitCont (visit sat (mapGet packages) fuel) id pkg path st := by
                simp only [visit, if_neg hvd, if_neg hvg]
                rw [hp]
                simp only [ite_eq_right_iff]
                intro hcontra
                exact absurd hcontra hmm
              rw [heq]
              exact ⟨hc.1, hc.2⟩


theorem visitRoots_spec {packages : List Manifest} {sat : String → String → Bool}
    {fuel : Nat} :
    ∀ ps st, GoodSt packages st →
      (rem packages st < fuel → visitRoots sat (mapGet packages) fuel ps st ≠ none) ∧
      (∀ st', visitRoots sat (mapGet packages) fuel ps st = some (.ok st') →
        GoodSt packages st' ∧ st'.visiting = st.visiting ∧
        (∀ i ∈ st.visited, i ∈ st'.visited) ∧ (∃ D, st'.sorted = st.sorted ++ D) ∧
        ∀ p ∈ ps, p.id ∈ st'.visited) := by
  intro ps
  induction ps with
  | nil =>
    intro st g
    constructor
    · intro _ h
      simp [visitRoots] at h
    · intro st' h
      simp only [visitRoots, Option.some.injEq, Except.ok.injEq] at h
      subst h
      exact ⟨g, rfl, fun i hi => hi, ⟨[], by simp⟩, by simp⟩
  | cons p ps ih =>
    intro st g
    rcases visit_spec packages sat fuel p.id none [] st g with ⟨hne, hok⟩
    constructor
    · intro hrem hnone
      simp only [visitRoots] at hnone
      cases hv : visit sat (mapGet packages) fuel p.id none [] st with
      | none => exact hne hrem hv
      | some res =>
        rw [hv] at hnone
        cases res with
        | error e => simp at hnone
        | ok st1 =>
          rcases hok st1 hv with ⟨g1, hviseq, _, _, _⟩
          have hrem1 : rem packages st1 < fuel := by
            rw [rem_congr hviseq]; exact hrem
          exact (ih st1 g1).1 hrem1 hnone
    · intro st' h
      simp only [visitRoots] at h
      cases hv : visit sat (mapGet packages) fuel p.id none [] st with
      | none => rw [hv] at h; simp at h
      | some res =>
        rw [hv] at h
        cases res with
        | error e => simp at h
        | ok st1 =>
          rcases hok st1 hv with ⟨g1, hviseq, hmono1, ⟨D1, hD1⟩, hdone1⟩
          rcases (ih st1 g1).2 st' h with ⟨g', hviseq', hmono', ⟨D2, hD2⟩, hps'⟩
          refine ⟨g', hviseq'.trans hviseq, fun i hi => hmono' i (hmono1 i hi),
            ⟨D1 ++ D2, by rw [hD2, hD1, List.append_assoc]⟩, ?_⟩
          intro q hq
          rcases List.mem_cons.mp hq with rfl | hq'
          · exact hmono' q.id hdone1
          · exact hps' q hq'

theorem rem_init_le (packages : List Manifest) :
    rem packages ⟨[], [], []⟩ ≤ packages.length := by
  have h1 : rem packages ⟨[], [], []⟩ ≤ (keysOf packages).dedup.length := by
    unfold rem
    exact List.length_filter_le _ _
  have h2 : (keysOf packages).dedup.length ≤ (keysOf packages).length :=
    (List.dedup_sublist _).length_le
  have h3 : (keysOf packages).length = packages.length := List.length_map _ _
  omega

/-- The fuel `packages.length + 1` used by `topologicalSort` is sufficient: the
traversal never reaches the out-of-fuel branch. -/
theorem visitRoots_ne_none (sat : String → String → Bool) (packages : List Manifest) :
    visitRoots sat (mapGet packages) (packages.length + 1) packages ⟨[], [], []⟩ ≠
      none := by
  refine (visitRoots_spec packages ⟨[], [], []⟩ (GoodSt.init packages)).1 ?_
  have := rem_init_le packages
  omega

/-- Characterization of a successful `topologicalSort` run: the output is the
`sorted` list of a final state that satisfies the traversal invariant and in
which every input id is marked done. -/
theorem topologicalSort_ok_state {sat : String → String → Bool}
    {packages : List Manifest} {out : List Manifest}
    (h : topologicalSort sat packages = .ok out) :
    ∃ st, GoodSt packages st ∧ out = st.sorted ∧
      ∀ p ∈ packages, p.id ∈ st.visited := by
  unfold topologicalSort at h
  cases hv : visitRoots sat (mapGet packages) (packages.length + 1) packages
      ⟨[], [], []⟩ with
  | none => exact absurd hv (visitRoots_ne_none sat packages)
  | some res =>
    rw [hv] at h
    cases res with
    | error e => simp at h
    | ok st =>
      simp only [Except.ok.injEq] at h
      rcases (visitRoots_spec packages ⟨[], [], []⟩ (GoodSt.init packages)).2 st hv with
        ⟨g, _, _, _, hdone⟩
      exact ⟨st, g, h.symm, hdone⟩

/-- Success lemma for the dependency loop, given that each dependency's visit
succeeds. -/
theorem visitDeps_succeeds {packages : List Manifest} {sat : String → String → Bool}
    {fuel : Nat}
    (ihvisit : ∀ id rv path st, GoodSt packages st → rem packages st < fuel →
      (∀ v ∈ st.visiting, Relation.TransGen (DepEdge packages) v id) →
      (mapGet packages id).isSome = true →
      (∀ r q, rv = some r → mapGet packages id = some q → sat q.version r = true) →
      ∃ st', visit sat (mapGet packages) fuel id rv path st = some (.ok st')) :
    ∀ ds path st, GoodSt packages st → rem packages st < fuel →
      (∀ d ∈ ds, (∀ v ∈ st.visiting, Relation.TransGen (DepEdge packages) v d.id) ∧
        (mapGet packages d.id).isSome = true ∧
        (∀ q, mapGet packages d.id = some q → sat q.version d.version = true)) →
      ∃ st', visitDeps (visit sat (mapGet packages) fuel) ds path st =
        some (.ok st') := by
  intro ds
  induction ds with
  | nil => exact fun path st _ _ _ => ⟨st, rfl⟩
  | cons d ds ihds =>
    intro path st g hrem hds
    rcases hds d (List.mem_cons_self d ds) with ⟨hre, hsm, hsat⟩
    have hrv : ∀ r q, (some d.version : Option String) = some r →
        mapGet packages d.id = some q → sat q.version r = true := by
      intro r q hrq hq
      cases hrq
      exact hsat q hq
    rcases ihvisit d.id (some d.version) path st g hrem hre hsm hrv with ⟨st1, hv1⟩
    rcases (visit_spec packages sat fuel d.id (some d.version) path st g).2 st1 hv1 with
      ⟨g1, hviseq, _, _, _⟩
    have hrem1 : rem packages st1 < fuel := by rw [rem_congr hviseq]; exact hrem
    have hds1 : ∀ e ∈ ds, (∀ v ∈ st1.visiting,
        Relation.TransGen (DepEdge packages) v e.id) ∧
        (mapGet packages e.id).isSome = true ∧
        (∀ q, mapGet packages e.id = some q → sat q.version e.version = true) := by
      intro e he
      rcases hds e (List.mem_cons_of_mem d he) with ⟨h1, h2, h3⟩
      exact ⟨fun v hv => h1 v (hviseq ▸ hv), h2, h3⟩
    rcases ihds path st1 g1 hrem1 hds1 with ⟨st2, hv2⟩
    refine ⟨st2, ?_⟩
    simp only [visitDeps]
    rw [hv1]
    exact hv2

/-- Success lemma: on a state satisfying the invariant, with enough fuel, with
every in-progress id reaching `id` in the dependency graph, with `id` present
in the map and its required range satisfied, `visit` succeeds — provided every
declared dependency is present with a satisfied range (`H2`) and the graph is
acyclic (`H4`). -/
theorem visit_succeeds {packages : List Manifest} {sat : String → String → Bool}
    (H2 : ∀ p ∈ packages, ∀ d ∈ p.dependencies,
      ∃ q, mapGet packages d.id = some q ∧ sat q.version d.version = true)
    (H4 : ∀ a, ¬ Relation.TransGen (DepEdge packages) a a) :
    ∀ fuel id rv path st, GoodSt packages st → rem packages st < fuel →
      (∀ v ∈ st.visiting, Relation.TransGen (DepEdge packages) v id) →
      (mapGet packages id).isSome = true →
      (∀ r q, rv = some r → mapGet packages id = some q → sat q.version r = true) →
      ∃ st', visit sat (mapGet packages) fuel id rv path st = some (.ok st') := by
  intro fuel
  induction fuel with
  | zero =>
    intro id rv path st g hrem
    exact absurd hrem (Nat.not_lt_zero _)
  | succ fuel ih =>
    intro id rv path st g hrem hreach hsome hrv
    rcases Option.isSome_iff_exists.mp hsome with ⟨pkg, hp⟩
    by_cases hvd : id ∈ st.visited
    · refine ⟨st, ?_⟩
      simp only [visit, if_pos hvd]
      rcases rv with _ | r
      · rfl
      · have hsat := hrv r pkg rfl hp
        by_cases hr : r = ""
        · simp [hr]
        · simp [hr, hp, hsat]
    · have hvg : id ∉ st.visiting := fun hin => H4 id (hreach id hin)
      have hpkgmem : pkg ∈ packages := (mapGet_eq_some hp).2
      have hpkgid : pkg.id = id := (mapGet_eq_some hp).1
      have hk : id ∈ keysOf packages := mapGet_isSome_iff.mp hsome
      have g1 := g.consVisiting hvg hvd hk
      have hrem1 : rem packages { st with visiting := id :: st.visiting } < fuel := by
        have := rem_cons hk hvg
        omega
      have hds : ∀ d ∈ pkg.dependencies,
          (∀ v ∈ ({ st with visiting := id :: st.visiting } : SortState).visiting,
            Relation.TransGen (DepEdge packages) v d.id) ∧
          (mapGet packages d.id).isSome = true ∧
          (∀ q, mapGet packages d.id = some q → sat q.version d.version = true) := by
        intro d hd
        have hedge : DepEdge packages id d.id := ⟨pkg, hpkgmem, hpkgid, d, hd, rfl⟩
        refine ⟨?_, ?_, ?_⟩
        · intro v hv
          rcases List.mem_cons.mp hv with rfl | hv'
          · exact Relation.TransGen.single hedge
          · exact (hreach v hv').tail hedge
        · rcases H2 pkg hpkgmem d hd with ⟨q, hq, _⟩
          rw [hq]; rfl
        · intro q hq
          rcases H2 pkg hpkgmem d hd with ⟨q', hq', hsat'⟩
          rw [hq'] at hq
          cases hq
          exact hsat'
      rcases visitDeps_succeeds ih pkg.dependencies (path ++ [id])
        { st with visiting := id :: st.visiting } g1 hrem1 hds with ⟨st2, hv2⟩
      have hcont : ∃ st', visitCont (visit sat (mapGet packages) fuel) id pkg path st =
          some (.ok st') := by
        refine ⟨⟨st2.sorted ++ [pkg], st2.visiting.erase id, id :: st2.visited⟩, ?_⟩
        unfold visitCont
        rw [hv2]
      rcases hcont with ⟨st3, hv3⟩
      refine ⟨st3, ?_⟩
      rcases rv with _ | r
      · have heq : visit sat (mapGet packages) (fuel + 1) id none path st =
            visitCont (visit sat (mapGet packages) fuel) id pkg path st := by
          simp [visit, hvd, hvg, hp]
        rw [heq]
        exact hv3
      · have hsat := hrv r pkg rfl hp
        have hmm : ¬ (r ≠ "" ∧ ¬ sat pkg.version r = true) := by
          rintro ⟨_, hns⟩
          exact hns hsat
        have heq : visit sat (mapGet packages) (fuel + 1) id (some r) path st =
            visitCont (visit sat (mapGet packages) fuel) id pkg path st := by
          simp only [visit, if_neg hvd, if_neg hvg]
          rw [hp]
          simp only [ite_eq_right_iff]
          intro hcontra
          exact absurd hcontra hmm
        rw [heq]
        exact hv3


theorem visitRoots_succeeds {packages : List Manifest} {sat : String → String → Bool}
    (fuel : Nat)
    (H2 : ∀ p ∈ packages, ∀ d ∈ p.dependencies,
      ∃ q, mapGet packages d.id = some q ∧ sat q.version d.version = true)
    (H4 : ∀ a, ¬ Relation.TransGen (DepEdge packages) a a) :
    ∀ ps st, GoodSt packages st → st.visiting = [] → rem packages st < fuel →
      (∀ p ∈ ps, p ∈ packages) →
      ∃ st', visitRoots sat (mapGet packages) fuel ps st = some (.ok st') := by
  intro ps
  induction ps with
  | nil => exact fun st _ _ _ _ => ⟨st, rfl⟩
  | cons p ps ih =>
    intro st g hvis hrem hmem
    have hreach : ∀ v ∈ st.visiting, Relation.TransGen (DepEdge packages) v p.id := by
      intro v hv
      rw [hvis] at hv
      cases hv
    have hsome : (mapGet packages p.id).isSome = true :=
      mapGet_isSome_iff.mpr (List.mem_map.mpr ⟨p, hmem p (List.mem_cons_self p ps), rfl⟩)
    have hrv : ∀ r q, (none : Option String) = some r →
        mapGet packages p.id = some q → sat q.version r = true := by
      intro r q h
      cases h
    rcases visit_succeeds H2 H4 fuel p.id none [] st g hrem hreach hsome hrv with
      ⟨st1, hv1⟩
    rcases (visit_spec packages sat fuel p.id none [] st g).2 st1 hv1 with
      ⟨g1, hviseq, _, _, _⟩
    have hvis1 : st1.visiting = [] := by rw [hviseq, hvis]
    have hrem1 : rem packages st1 < fuel := by rw [rem_congr hviseq]; exact hrem
    rcases ih st1 g1 hvis1 hrem1 (fun q hq => hmem q (List.mem_cons_of_mem p hq)) with
      ⟨st2, hv2⟩
    refine ⟨st2, ?_⟩
    simp only [visitRoots]
    rw [hv1]
    exact hv2

/-- A graph admitting a strictly decreasing rank along its edges is acyclic. -/
theorem rank_acyclic {packages : List Manifest} (f : String → Nat)
    (h : ∀ a b, DepEdge packages a b → f b < f a) :
    ∀ a, ¬ Relation.TransGen (DepEdge packages) a a := by
  have hlt : ∀ a b, Relation.TransGen (DepEdge packages) a b → f b < f a := by
    intro a b htg
    induction htg with
    | single h1 => exact h _ _ h1
    | tail _ h1 ih => exact lt_trans (h _ _ h1) ih
  exact fun a hcyc => lt_irrefl (f a) (hlt a a hcyc)

/-- C1: for any list of descriptors with pairwise-distinct ids, an acyclic
dependency graph, every referenced dependency present, and every declared
range satisfied, `topologicalSort` succeeds with a permutation of the input in
which every dependency edge points backward (the dependency's position
precedes the dependent's); in particular `topologicalSort [] = ok []`. -/
theorem topologicalSort_correct (sat : String → String → Bool)
    (packages : List Manifest)
    (H1 : (packages.map (fun p => p.id)).Nodup)
    (H2 : ∀ p ∈ packages, ∀ d ∈ p.dependencies, d.id ∈ packages.map (fun p => p.id))
    (H3 : ∀ p ∈ packages, ∀ d ∈ p.dependencies, ∀ q ∈ packages, q.id = d.id →
      sat q.version d.version = true)
    (H4 : ∀ a, ¬ Relation.TransGen (DepEdge packages) a a) :
    topologicalSort sat [] = Except.ok [] ∧
    ∃ out, topologicalSort sat packages = .ok out ∧ out.Perm packages ∧
      ∀ i, ∀ hi : i < out.length, ∀ d ∈ out[i].dependencies,
        ∃ j, ∃ hj : j < out.length, j < i ∧ out[j].id = d.id := by
  refine ⟨rfl, ?_⟩
  have H2x : ∀ p ∈ packages, ∀ d ∈ p.dependencies,
      ∃ q, mapGet packages d.id = some q ∧ sat q.version d.version = true := by
    intro p hp d hd
    have hsome : (mapGet packages d.id).isSome = true :=
      mapGet_isSome_iff.mpr (H2 p hp d hd)
    rcases Option.isSome_iff_exists.mp hsome with ⟨q, hq⟩
    rcases mapGet_eq_some hq with ⟨hqid, hqmem⟩
    exact ⟨q, hq, H3 p hp d hd q hqmem hqid⟩
  have hrem : rem packages ⟨[], [], []⟩ < packages.length + 1 := by
    have := rem_init_le packages
    omega
  rcases visitRoots_succeeds (packages.length + 1) H2x H4 packages
    ⟨[], [], []⟩ (GoodSt.init packages) rfl hrem (fun _ h => h) with ⟨stF, hroots⟩
  have hts : topologicalSort sat packages = .ok stF.sorted := by
    unfold topologicalSort
    rw [hroots]
  rcases (visitRoots_spec packages ⟨[], [], []⟩ (GoodSt.init packages)).2 stF hroots with
    ⟨gF, _, _, _, hdone⟩
  refine ⟨stF.sorted, hts, ?_, gF.closed⟩
  have hfwd : ∀ p ∈ stF.sorted, p ∈ packages := by
    intro p hp
    exact (mapGet_eq_some (gF.sorted_map p hp)).2
  have hbwd : ∀ p ∈ packages, p ∈ stF.sorted := by
    intro p hp
    have hv : p.id ∈ stF.visited := hdone p hp
    have hm : p.id ∈ stF.sorted.map (fun p => p.id) := (gF.visited_iff p.id).mp hv
    rcases List.mem_map.mp hm with ⟨q, hq, hqid⟩
    have hqm : q ∈ packages := hfwd q hq
    have : q = p := List.inj_on_of_nodup_map H1 hqm hp hqid
    exact this ▸ hq
  exact (List.perm_ext_iff_of_nodup (gF.sorted_nodup.of_map _) (H1.of_map _)).mpr
    (fun a => ⟨fun h => hfwd a h, fun h => hbwd a h⟩)

def manifestB : Manifest := { id := "B", version := "1.2.3" }
def manifestA : Manifest :=
  { id := "A", version := "1.0.0", dependencies := [⟨"B", "^1.0.0"⟩] }

theorem topologicalSort_correct_witness :
    topologicalSort satisfiesSpec [] = Except.ok [] ∧
    ∃ out, topologicalSort satisfiesSpec [manifestB, manifestA] =
        .ok out ∧ out.Perm [manifestB, manifestA] ∧
      ∀ i, ∀ hi : i < out.length, ∀ d ∈ out[i].dependencies,
        ∃ j, ∃ hj : j < out.length, j < i ∧ out[j].id = d.id :=
  topologicalSort_correct satisfiesSpec [manifestB, manifestA]
    (by decide) (by decide) (by decide)
    (rank_acyclic (fun s => if s = "A" then 1 else 0) (by
      intro a b h
      rcases h with ⟨p, hp, hpa, d, hd, hdb⟩
      subst hpa
      subst hdb
      rcases List.mem_cons.mp hp with rfl | hp
      · simp [manifestB] at hd
      · rcases List.mem_cons.mp hp with rfl | hp
        · simp only [manifestA, List.mem_singleton] at hd
          subst hd
          decide
        · cases hp))


/-! ### C2: conflicting range against an already-done dependency -/

def exmA : Manifest :=
  { id := "A", version := "1.0.0", dependencies := [⟨"B", "^1.0.0"⟩] }
def exmB : Manifest := { id := "B", version := "1.5.0" }
def exmC : Manifest :=
  { id := "C", version := "1.0.0", dependencies := [⟨"B", "^2.0.0"⟩] }

/-- C2: when `visit` reaches an id already marked done, carrying a required
range that the stored descriptor's version does not satisfy, it fails with a
`VersionMismatch` naming that id, its stored version, the range, and the last
element of the current DFS path (the later requester); the earlier requester's
completed visit stands.  In particular, for
`[A dep B ^1.0.0, B at 1.5.0, C dep B ^2.0.0]` the whole sort fails with
`VersionMismatch(B, 1.5.0, ^2.0.0, requestedBy C)`. -/
theorem visit_done_version_mismatch (sat : String → String → Bool)
    (packages : List Manifest) (fuel : Nat) (id r : String) (path : List String)
    (st : SortState) (pkg : Manifest)
    (hdone : id ∈ st.visited) (hr : r ≠ "")
    (hpkg : mapGet packages id = some pkg)
    (hsat : sat pkg.version r = false) :
    visit sat (mapGet packages) (fuel + 1) id (some r) path st =
      some (.error (.versionMismatch id pkg.version r path.getLast?)) ∧
    topologicalSort satisfiesSpec [exmA, exmB, exmC] =
      .error (.versionMismatch "B" "1.5.0" "^2.0.0" (some "C")) := by
  constructor
  · simp only [visit, if_pos hdone]
    rw [hpkg]
    simp [hr, hsat]
  · decide

theorem visit_done_version_mismatch_witness :
    visit satisfiesSpec (mapGet [exmB]) (0 + 1) "B" (some "^2.0.0") ["C"]
        ⟨[exmB], [], ["B"]⟩ =
      some (.error (.versionMismatch "B" exmB.version "^2.0.0"
        (["C"] : List String).getLast?)) ∧
    topologicalSort satisfiesSpec [exmA, exmB, exmC] =
      .error (.versionMismatch "B" "1.5.0" "^2.0.0" (some "C")) :=
  visit_done_version_mismatch satisfiesSpec [exmB] 0 "B" "^2.0.0" ["C"]
    ⟨[exmB], [], ["B"]⟩ exmB (by decide) (by decide) (by decide) (by decide)


/-! ### C3: cycle detection -/

/-- Shape of the cycle list reported by `CircularDependencyError`: at least two
entries, the first id repeated at the end, consecutive entries joined by
dependency edges, and no repetition before the closing id. -/
def CycleShape (packages : List Manifest) (c : List String) : Prop :=
  2 ≤ c.length ∧ c.head? = c.getLast? ∧
    List.Chain' (DepEdge packages) c ∧ c.dropLast.Nodup

theorem nodup_indexOf_eq {l : List String} (h : l.Nodup) {i : Nat}
    (hi : i < l.length) {a : String} (ha : l[i] = a) : l.indexOf a = i := by
  have hmem : a ∈ l := ha ▸ List.getElem_mem hi
  have hlt : l.indexOf a < l.length := List.indexOf_lt_length.mpr hmem
  have hga : l.get ⟨l.indexOf a, hlt⟩ = a := List.indexOf_get hlt
  have hia : l.get ⟨i, hi⟩ = a := by
    rw [List.get_eq_getElem]
    exact ha
  have : (⟨l.indexOf a, hlt⟩ : Fin l.length) = ⟨i, hi⟩ :=
    (List.Nodup.get_inj_iff h).mp (by rw [hga, hia])
  exact congrArg Fin.val this

/-- The cycle value constructed at the in-progress branch —
`[...path, id].slice(path.indexOf(id))` — has the `CycleShape` form whenever
`id` occurs in the (duplicate-free) path and consecutive path entries are
dependency edges. -/
theorem cycleShape_of_detect {packages : List Manifest} {path : List String}
    {id : String} (hmem : id ∈ path) (hnd : path.Nodup)
    (hchain : List.Chain' (DepEdge packages) (path ++ [id])) :
    CycleShape packages ((path ++ [id]).drop (path.indexOf id)) := by
  have hilt : path.indexOf id < path.length := List.indexOf_lt_length.mpr hmem
  have hdropeq : (path ++ [id]).drop (path.indexOf id) =
      path.drop (path.indexOf id) ++ [id] :=
    List.drop_append_of_le_length (le_of_lt hilt)
  refine ⟨?_, ?_, ?_, ?_⟩
  · rw [hdropeq]
    simp only [List.length_append, List.length_drop, List.length_singleton]
    omega
  · have hhead : ((path ++ [id]).drop (path.indexOf id)).head? = some id := by
      rw [List.head?_drop, List.getElem?_append_left hilt,
        List.getElem?_eq_getElem hilt]
      have : path.get ⟨path.indexOf id, hilt⟩ = id := List.indexOf_get hilt
      rw [List.get_eq_getElem] at this
      rw [this]
    have hlast : ((path ++ [id]).drop (path.indexOf id)).getLast? = some id := by
      rw [hdropeq]
      exact List.getLast?_concat _
    rw [hhead, hlast]
  · exact hchain.drop _
  · rw [hdropeq, List.dropLast_concat]
    exact hnd.sublist (List.drop_sublist _ _)


/-- Error classification contract for a `visit`-shaped function: under the
hypotheses that the visited id is present in the map and its required range is
satisfied, the only error the call can produce is a `CircularDependency`
carrying a `CycleShape` list. -/
def ErrClass (packages : List Manifest) (sat : String → String → Bool)
    (visitF : String → Option String → List String → SortState →
      Option (Except SortError SortState)) : Prop :=
  ∀ id rv path st, GoodSt packages st →
    path = st.visiting.reverse →
    List.Chain' (DepEdge packages) (path ++ [id]) →
    (mapGet packages id).isSome = true →
    (∀ r q, rv = some r → mapGet packages id = some q → sat q.version r = true) →
    ∀ e, visitF id rv path st = some (.error e) →
      ∃ c, e = .circularDependency c ∧ CycleShape packages c

theorem visitDeps_error_class {packages : List Manifest}
    {sat : String → String → Bool} {fuel : Nat}
    (ihv : ErrClass packages sat (visit sat (mapGet packages) fuel)) :
    ∀ ds path st, GoodSt packages st → path = st.visiting.reverse →
      (∀ d ∈ ds, List.Chain' (DepEdge packages) (path ++ [d.id])) →
      (∀ d ∈ ds, (mapGet packages d.id).isSome = true ∧
        (∀ q, mapGet packages d.id = some q → sat q.version d.version = true)) →
      ∀ e, visitDeps (visit sat (mapGet packages) fuel) ds path st =
          some (.error e) →
        ∃ c, e = .circularDependency c ∧ CycleShape packages c := by
  intro ds
  induction ds with
  | nil =>
    intro path st _ _ _ _ e h
    simp [visitDeps] at h
  | cons d ds ih =>
    intro path st g hpv hchain hcond e h
    simp only [visitDeps] at h
    cases hv : visit sat (mapGet packages) fuel d.id (some d.version) path st with
    | none => rw [hv] at h; simp at h
    | some res =>
      rw [hv] at h
      cases res with
      | error e1 =>
        simp only [Option.some.injEq, Except.error.injEq] at h
        subst h
        rcases hcond d (List.mem_cons_self d ds) with ⟨hs, hq⟩
        exact ihv d.id (some d.version) path st g hpv
          (hchain d (List.mem_cons_self d ds)) hs
          (fun r q hr hq2 => by cases hr; exact hq q hq2) e1 hv
      | ok st1 =>
        rcases (visit_spec packages sat fuel d.id (some d.version) path st g).2
          st1 hv with ⟨g1, hviseq, _, _, _⟩
        exact ih path st1 g1 (by rw [hviseq]; exact hpv)
          (fun e' he' => hchain e' (List.mem_cons_of_mem d he'))
          (fun e' he' => hcond e' (List.mem_cons_of_mem d he')) e h

theorem visit_error_class {packages : List Manifest} {sat : String → String → Bool}
    (H2x : ∀ p ∈ packages, ∀ d ∈ p.dependencies,
      ∃ q, mapGet packages d.id = some q ∧ sat q.version d.version = true) :
    ∀ fuel, ErrClass packages sat (visit sat (mapGet packages) fuel) := by
  intro fuel
  induction fuel with
  | zero =>
    intro id rv path st _ _ _ _ _ e h
    simp [visit] at h
  | succ fuel ih =>
    intro id rv path st g hpv hchain hsome hrv e h
    rcases Option.isSome_iff_exists.mp hsome with ⟨pkg, hp⟩
    by_cases hvd : id ∈ st.visited
    · exfalso
      simp only [visit, if_pos hvd] at h
      rcases rv with _ | r
      · simp at h
      · have hsat := hrv r pkg rfl hp
        by_cases hr : r = ""
        · simp [hr] at h
        · rw [hp] at h
          simp [hr, hsat] at h
    · by_cases hvg : id ∈ st.visiting
      · have heq : visit sat (mapGet packages) (fuel + 1) id rv path st =
            some (.error (.circularDependency
              ((path ++ [id]).drop (path.indexOf id)))) := by
          simp [visit, hvd, hvg]
        rw [heq] at h
        simp only [Option.some.injEq, Except.error.injEq] at h
        subst h
        refine ⟨_, rfl, ?_⟩
        apply cycleShape_of_detect
        · rw [hpv]
          exact List.mem_reverse.mpr hvg
        · rw [hpv]
          exact List.nodup_reverse.mpr g.visiting_nodup
        · exact hchain
      · have hk : id ∈ keysOf packages := mapGet_isSome_iff.mp hsome
        have hpkgmem : pkg ∈ packages := (mapGet_eq_some hp).2
        have hpkgid : pkg.id = id := (mapGet_eq_some hp).1
        have hcontclass : ∀ e1,
            visitCont (visit sat (mapGet packages) fuel) id pkg path st =
              some (.error e1) →
            ∃ c, e1 = .circularDependency c ∧ CycleShape packages c := by
          intro e1 h1
          unfold visitCont at h1
          cases hv2 : visitDeps (visit sat (mapGet packages) fuel) pkg.dependencies
              (path ++ [id]) { st with visiting := id :: st.visiting } with
          | none => rw [hv2] at h1; simp at h1
          | some res =>
            rw [hv2] at h1
            cases res with
            | ok st2 => simp at h1
            | error e2 =>
              simp only [Option.some.injEq, Except.error.injEq] at h1
              subst h1
              have g1 := g.consVisiting hvg hvd hk
              have hpv1 : path ++ [id] =
                  ({ st with visiting := id :: st.visiting } : SortState).visiting.reverse := by
                simp [hpv]
              have hchain1 : ∀ d ∈ pkg.dependencies,
                  List.Chain' (DepEdge packages) ((path ++ [id]) ++ [d.id]) := by
                intro d hd
                rw [List.chain'_append]
                refine ⟨hchain, List.chain'_singleton _, ?_⟩
                intro x hx y hy
                rw [List.getLast?_concat] at hx
                simp only [List.head?_cons, Option.mem_some_iff] at hx hy
                subst hx
                subst hy
                exact ⟨pkg, hpkgmem, hpkgid, d, hd, rfl⟩
              have hcond1 : ∀ d ∈ pkg.dependencies,
                  (mapGet packages d.id).isSome = true ∧
                  (∀ q, mapGet packages d.id = some q →
                    sat q.version d.version = true) := by
                intro d hd
                rcases H2x pkg hpkgmem d hd with ⟨q, hq, hqsat⟩
                refine ⟨by rw [hq]; rfl, ?_⟩
                intro q' hq'
                rw [hq] at hq'
                cases hq'
                exact hqsat
              exact visitDeps_error_class ih pkg.dependencies (path ++ [id])
                { st with visiting := id :: st.visiting } g1 hpv1 hchain1 hcond1
                e2 hv2
        rcases rv with _ | r
        · have heq : visit sat (mapGet packages) (fuel + 1) id none path st =
              visitCont (visit sat (mapGet packages) fuel) id pkg path st := by
            simp [visit, hvd, hvg, hp]
          rw [heq] at h
          exact hcontclass e h
        · by_cases hmm : r ≠ "" ∧ ¬ sat pkg.version r = true
          · exact absurd (hrv r pkg rfl hp) hmm.2
          · have heq : visit sat (mapGet packages) (fuel + 1) id (some r) path st =
                visitCont (visit sat (mapGet packages) fuel) id pkg path st := by
              simp only [visit, if_neg hvd, if_neg hvg]
              rw [hp]
              simp only [ite_eq_right_iff]
              intro hcontra
              exact absurd hcontra hmm
            rw [heq] at h
            exact hcontclass e h

theorem visitRoots_error_class {packages : List Manifest}
    {sat : String → String → Bool} {fuel : Nat}
    (H2x : ∀ p ∈ packages, ∀ d ∈ p.dependencies,
      ∃ q, mapGet packages d.id = some q ∧ sat q.version d.version = true) :
    ∀ ps st, GoodSt packages st → st.visiting = [] → (∀ p ∈ ps, p ∈ packages) →
      ∀ e, visitRoots sat (mapGet packages) fuel ps st = some (.error e) →
        ∃ c, e = .circularDependency c ∧ CycleShape packages c := by
  intro ps
  induction ps with
  | nil =>
    intro st _ _ _ e h
    simp [visitRoots] at h
  | cons p ps ih =>
    intro st g hvis hmem e h
    simp only [visitRoots] at h
    cases hv : visit sat (mapGet packages) fuel p.id none [] st with
    | none => rw [hv] at h; simp at h
    | some res =>
      rw [hv] at h
      cases res with
      | error e1 =>
        simp only [Option.some.injEq, Except.error.injEq] at h
        subst h
        refine visit_error_class H2x fuel p.id none [] st g ?_ ?_ ?_ ?_ e1 hv
        · rw [hvis]; rfl
        · simp
        · exact mapGet_isSome_iff.mpr
            (List.mem_map.mpr ⟨p, hmem p (List.mem_cons_self p ps), rfl⟩)
        · intro r q hr
          cases hr
      | ok st1 =>
        rcases (visit_spec packages sat fuel p.id none [] st g).2 st1 hv with
          ⟨g1, hviseq, _, _, _⟩
        exact ih st1 g1 (by rw [hviseq, hvis])
          (fun q hq => hmem q (List.mem_cons_of_mem p hq)) e h


/-- A successful sort of a duplicate-free input certifies that the declared
dependency graph is acyclic (every edge points backward in the output order). -/
theorem acyclic_of_sort_ok {sat : String → String → Bool}
    {packages out : List Manifest}
    (H1 : (packages.map (fun p => p.id)).Nodup)
    (h : topologicalSort sat packages = .ok out) :
    ∀ a, ¬ Relation.TransGen (DepEdge packages) a a := by
  rcases topologicalSort_ok_state h with ⟨st, g, hout, hdone⟩
  apply rank_acyclic (fun s => (st.sorted.map (fun p => p.id)).indexOf s)
  intro a b hedge
  rcases hedge with ⟨p, hp, hpa, d, hd, hdb⟩
  have hpid : mapGet packages a = some p := by
    rw [← hpa]
    exact mapGet_self_of_nodup H1 hp
  have hav : a ∈ st.visited := by
    rw [← hpa]
    exact hdone p hp
  have ham : a ∈ st.sorted.map (fun p => p.id) := (g.visited_iff a).mp hav
  rcases List.getElem_of_mem ham with ⟨i, hi_len, hi_eq⟩
  have hsortlen : i < st.sorted.length := by
    have hlm : (st.sorted.map (fun p => p.id)).length = st.sorted.length :=
      List.length_map _ _
    omega
  have hsid : (st.sorted[i]).id = a := by
    rw [List.getElem_map] at hi_eq
    exact hi_eq
  have hmember : st.sorted[i] ∈ st.sorted := List.getElem_mem hsortlen
  have hmg : mapGet packages (st.sorted[i]).id = some (st.sorted[i]) :=
    g.sorted_map _ hmember
  rw [hsid, hpid] at hmg
  have heqp : st.sorted[i] = p := by
    injection hmg with hmg'
    exact hmg'.symm
  have hdmem : d ∈ (st.sorted[i]).dependencies := by
    rw [heqp]
    exact hd
  rcases g.closed i hsortlen d hdmem with ⟨j, hj, hji, hjid⟩
  have hjlen : j < (st.sorted.map (fun p => p.id)).length := by
    have hlm : (st.sorted.map (fun p => p.id)).length = st.sorted.length :=
      List.length_map _ _
    omega
  have hidj : (st.sorted.map (fun p => p.id))[j] = b := by
    rw [List.getElem_map, hjid, hdb]
  have hIb := nodup_indexOf_eq g.sorted_nodup hjlen hidj
  have hIa := nodup_indexOf_eq g.sorted_nodup hi_len hi_eq
  simp only [hIa, hIb]
  exact hji

def cexSelf : Manifest :=
  { id := "self-a", version := "1.0.0", dependencies := [⟨"self-a", "*"⟩] }
def chainA : Manifest :=
  { id := "chain-a", version := "1.0.0", dependencies := [⟨"chain-b", "*"⟩] }
def chainB : Manifest :=
  { id := "chain-b", version := "1.0.0", dependencies := [⟨"chain-c", "*"⟩] }
def chainC : Manifest :=
  { id := "chain-c", version := "1.0.0", dependencies := [⟨"chain-a", "*"⟩] }

/-- C3 (amended): for an input with pairwise-distinct ids, every referenced
dependency present and every declared range satisfied, a cyclic dependency
graph makes `topologicalSort` fail with a `CircularDependency` whose cycle
list is the sub-sequence of the DFS path from the revisited id's first
occurrence, closed by that id again (`CycleShape`: the first id repeated at
the end, consecutive dependency edges, no repetition before the close); a
self-dependency yields `[A, A]` and a chain `A→B→C→A` yields `[A, B, C, A]`. -/
theorem topologicalSort_cycle (sat : String → String → Bool)
    (packages : List Manifest)
    (H1 : (packages.map (fun p => p.id)).Nodup)
    (H2 : ∀ p ∈ packages, ∀ d ∈ p.dependencies, d.id ∈ packages.map (fun p => p.id))
    (H3 : ∀ p ∈ packages, ∀ d ∈ p.dependencies, ∀ q ∈ packages, q.id = d.id →
      sat q.version d.version = true)
    (Hcyc : ∃ a, Relation.TransGen (DepEdge packages) a a) :
    (∃ c, topologicalSort sat packages = .error (.circularDependency c) ∧
      CycleShape packages c) ∧
    topologicalSort satisfiesSpec [cexSelf] =
      .error (.circularDependency ["self-a", "self-a"]) ∧
    topologicalSort satisfiesSpec [chainA, chainB, chainC] =
      .error (.circularDependency ["chain-a", "chain-b", "chain-c", "chain-a"]) := by
  refine ⟨?_, by decide, by decide⟩
  have H2x : ∀ p ∈ packages, ∀ d ∈ p.dependencies,
      ∃ q, mapGet packages d.id = some q ∧ sat q.version d.version = true := by
    intro p hp d hd
    have hsome : (mapGet packages d.id).isSome = true :=
      mapGet_isSome_iff.mpr (H2 p hp d hd)
    rcases Option.isSome_iff_exists.mp hsome with ⟨q, hq⟩
    rcases mapGet_eq_some hq with ⟨hqid, hqmem⟩
    exact ⟨q, hq, H3 p hp d hd q hqmem hqid⟩
  cases hres : topologicalSort sat packages with
  | ok out =>
    rcases Hcyc with ⟨a, ha⟩
    exact absurd ha (acyclic_of_sort_ok H1 hres a)
  | error e =>
    unfold topologicalSort at hres
    cases hv : visitRoots sat (mapGet packages) (packages.length + 1) packages
        ⟨[], [], []⟩ with
    | none => exact absurd hv (visitRoots_ne_none sat packages)
    | some res =>
      rw [hv] at hres
      cases res with
      | ok st => simp at hres
      | error e1 =>
        simp only [Except.error.injEq] at hres
        subst hres
        rcases visitRoots_error_class H2x packages ⟨[], [], []⟩
          (GoodSt.init packages) rfl (fun _ hx => hx) e1 hv with ⟨c, rfl, hshape⟩
        exact ⟨c, rfl, hshape⟩

def cexMixed : Manifest :=
  { id := "A", version := "1.0.0", dependencies := [⟨"X", "*"⟩, ⟨"A", "*"⟩] }

/-- Does a sort result carry a `CircularDependencyError`? -/
def isCircularError : Except SortError (List Manifest) → Bool
  | .error (.circularDependency _) => true
  | _ => false

/-- C3 counterexample: the input `[A depending on X and on A]` has a cyclic
dependency graph (`A → A`), yet `topologicalSort` does not fail with
`CircularDependency` — the missing dependency `X` is discovered first and the
failure is `DependencyNotFound(X, requestedBy A)`. -/
theorem topologicalSort_cycle_cex :
    Relation.TransGen (DepEdge [cexMixed]) "A" "A" ∧
    topologicalSort satisfiesSpec [cexMixed] =
      .error (.dependencyNotFound "X" (some "A")) ∧
    isCircularError (topologicalSort satisfiesSpec [cexMixed]) = false :=
  ⟨Relation.TransGen.single (by decide), by decide, by decide⟩

theorem topologicalSort_cycle_witness :
    (∃ c, topologicalSort satisfiesSpec [cexSelf] =
        .error (.circularDependency c) ∧ CycleShape [cexSelf] c) ∧
    topologicalSort satisfiesSpec [cexSelf] =
      .error (.circularDependency ["self-a", "self-a"]) ∧
    topologicalSort satisfiesSpec [chainA, chainB, chainC] =
      .error (.circularDependency ["chain-a", "chain-b", "chain-c", "chain-a"]) :=
  topologicalSort_cycle satisfiesSpec [cexSelf] (by decide) (by decide) (by decide)
    ⟨"self-a", Relation.TransGen.single (by decide)⟩


/-! ### C8: duplicate ids -/

theorem find?_eq_head?_filter {α : Type} (p : α → Bool) (m : List α) :
    m.find? p = (m.filter p).head? := by
  induction m with
  | nil => rfl
  | cons a m ih =>
    cases h : p a with
    | true =>
      rw [List.find?_cons, List.filter_cons, h]
      simp
    | false =>
      rw [List.find?_cons, List.filter_cons, h]
      rw [if_neg Bool.false_ne_true]
      exact ih

/-- The resolver's internal map keeps, for each id, the **last** descriptor of
the input with that id. -/
theorem mapGet_eq_filter_getLast? (packages : List Manifest) (id : String) :
    mapGet packages id = (packages.filter (fun p => p.id == id)).getLast? := by
  unfold mapGet
  rw [find?_eq_head?_filter, List.filter_reverse]
  exact List.head?_reverse _

theorem topologicalSort_ok_props {sat : String → String → Bool}
    {packages out : List Manifest} (h : topologicalSort sat packages = .ok out) :
    (out.map (fun p => p.id)).Nodup ∧ ∀ p ∈ out, mapGet packages p.id = some p := by
  rcases topologicalSort_ok_state h with ⟨st, g, hout, _⟩
  subst hout
  exact ⟨g.sorted_nodup, g.sorted_map⟩

def dupFirst : Manifest := { id := "dup", version := "1.0.0" }
def dupSecond : Manifest := { id := "dup", version := "2.0.0" }

/-- C8: duplicate ids raise no error: the internal map keeps the last
descriptor per id, every successful output has one entry per id and each
output entry is the map's (last-occurring) descriptor; concretely, two
descriptors sharing the id `dup` sort to just the second one, which is not a
permutation of the input. -/
theorem topologicalSort_duplicate_ids :
    (∀ packages id,
      mapGet packages id = (packages.filter (fun p => p.id == id)).getLast?) ∧
    (∀ (sat : String → String → Bool) (packages out : List Manifest),
      topologicalSort sat packages = .ok out →
      (out.map (fun p => p.id)).Nodup ∧ ∀ p ∈ out, mapGet packages p.id = some p) ∧
    topologicalSort satisfiesSpec [dupFirst, dupSecond] = .ok [dupSecond] ∧
    ¬ ([dupSecond] : List Manifest).Perm [dupFirst, dupSecond] := by
  refine ⟨mapGet_eq_filter_getLast?, ?_, by decide, by decide⟩
  intro sat packages out h
  exact topologicalSort_ok_props h

theorem topologicalSort_duplicate_ids_witness :
    (([dupSecond] : List Manifest).map (fun p => p.id)).Nodup ∧
      ∀ p ∈ ([dupSecond] : List Manifest), mapGet [dupFirst, dupSecond] p.id = some p :=
  topologicalSort_duplicate_ids.2.1 satisfiesSpec [dupFirst, dupSecond] [dupSecond]
    (by decide)


/-! ## Properties of the registry and the lifecycle coordinator -/

theorem register_of_absent {ctx : DefaultPluginContext} {id : String}
    {plugin : LibriaPlugin} {metadata : PluginMetadata}
    (h : ctx.hasPlugin id = false) :
    ctx.register id plugin metadata =
      (.ok (), ⟨ctx.plugins ++ [(id, ⟨plugin, metadata⟩)]⟩) := by
  unfold DefaultPluginContext.register
  unfold DefaultPluginContext.hasPlugin at h
  rw [h]
  rfl

theorem hasPlugin_append_self (ctx : DefaultPluginContext) (id : String)
    (entry : RegisteredPlugin) :
    DefaultPluginContext.hasPlugin ⟨ctx.plugins ++ [(id, entry)]⟩ id = true := by
  unfold DefaultPluginContext.hasPlugin
  rw [List.find?_append]
  cases hfind : ctx.plugins.find? (fun e => e.1 == id) with
  | some e => rfl
  | none => simp

theorem find?_singleton_ne {α : Type} {id j : String} (entry : α) (h : j ≠ id) :
    List.find? (fun e => e.1 == j) [(id, entry)] = none := by
  have hf : (id == j) = false := beq_eq_false_iff_ne.mpr (Ne.symm h)
  simp [List.find?_cons, hf]

theorem hasPlugin_append_ne {ctx : DefaultPluginContext} {id j : String}
    (entry : RegisteredPlugin) (h : j ≠ id) :
    DefaultPluginContext.hasPlugin ⟨ctx.plugins ++ [(id, entry)]⟩ j =
      ctx.hasPlugin j := by
  unfold DefaultPluginContext.hasPlugin
  rw [List.find?_append, find?_singleton_ne entry h]
  cases ctx.plugins.find? (fun e => e.1 == j) <;> rfl

theorem getPluginInstance_append_ne {ctx : DefaultPluginContext} {id j : String}
    (entry : RegisteredPlugin) (h : j ≠ id) :
    DefaultPluginContext.getPluginInstance ⟨ctx.plugins ++ [(id, entry)]⟩ j =
      ctx.getPluginInstance j := by
  unfold DefaultPluginContext.getPluginInstance DefaultPluginContext.getEntry
  rw [List.find?_append, find?_singleton_ne entry h]
  cases ctx.plugins.find? (fun e => e.1 == j) <;> rfl

/-- C7: `register` throws `DuplicatePlugin id` exactly when `id` is already
registered, leaving the registry unchanged on that error; otherwise it inserts
the entry, after which `hasPlugin id` is true; and `unregister` of an absent id
returns `none` without failing and without changing the registry. -/
theorem register_unregister_spec (ctx : DefaultPluginContext) (id : String)
    (plugin : LibriaPlugin) (metadata : PluginMetadata) :
    (ctx.register id plugin metadata = (.error (.duplicatePlugin id), ctx) ↔
      ctx.hasPlugin id = true) ∧
    (ctx.hasPlugin id = false →
      ∃ ctx', ctx.register id plugin metadata = (.ok (), ctx') ∧
        ctx'.hasPlugin id = true) ∧
    (ctx.hasPlugin id = false → ctx.unregister id = (none, ctx)) := by
  refine ⟨⟨?_, ?_⟩, ?_, ?_⟩
  · intro h
    unfold DefaultPluginContext.register at h
    unfold DefaultPluginContext.hasPlugin
    by_cases hs : (ctx.plugins.find? (fun e => e.1 == id)).isSome = true
    · exact hs
    · rw [if_neg hs] at h
      cases h
  · intro h
    unfold DefaultPluginContext.register
    unfold DefaultPluginContext.hasPlugin at h
    rw [if_pos h]
  · intro h
    exact ⟨_, register_of_absent h, hasPlugin_append_self ctx id ⟨plugin, metadata⟩⟩
  · intro h
    unfold DefaultPluginContext.unregister DefaultPluginContext.getEntry
    unfold DefaultPluginContext.hasPlugin at h
    have hnone : ctx.plugins.find? (fun e => e.1 == id) = none :=
      Option.not_isSome_iff_eq_none.mp (by rw [h]; exact Bool.false_ne_true)
    rw [hnone]
    rfl

def samplePlugin : LibriaPlugin := { api := "sample" }
def sampleMetadata : PluginMetadata :=
  { id := "q", name := none, pluginType := "test", version := "1.0.0",
    description := none, dependencies := [], dir := "/q" }
def sampleCtx : DefaultPluginContext := ⟨[("q", ⟨samplePlugin, sampleMetadata⟩)]⟩

theorem register_unregister_spec_witness :
    sampleCtx.register "q" samplePlugin sampleMetadata =
      (.error (.duplicatePlugin "q"), sampleCtx) ∧
    (∃ ctx', DefaultPluginContext.register ⟨[]⟩ "p" samplePlugin sampleMetadata =
      (.ok (), ctx') ∧ ctx'.hasPlugin "p" = true) ∧
    DefaultPluginContext.unregister ⟨[]⟩ "p" = (none, ⟨[]⟩) :=
  ⟨(register_unregister_spec sampleCtx "q" samplePlugin sampleMetadata).1.mpr
      (by decide),
   (register_unregister_spec ⟨[]⟩ "p" samplePlugin sampleMetadata).2.1 (by decide),
   (register_unregister_spec ⟨[]⟩ "p" samplePlugin sampleMetadata).2.2 (by decide)⟩

/-- C5: when the combined manifests of a batch fail resolution, `loadPlugins`
propagates that resolution error before any plugin is instantiated: no events
fire and the manager state (registry and manifest bookkeeping) is returned
unchanged. -/
theorem loadPlugins_resolution_abort (sat : String → String → Bool)
    (loader : Loader) (allManifests : List Manifest) (st : ManagerState)
    (e : SortError) (h : topologicalSort sat allManifests = .error e) :
    loadPlugins sat loader allManifests st = ([], st, .error (.sortError e)) := by
  unfold loadPlugins
  rw [h]

def stubLoader : Loader := fun m => .error (.loadError m.id)

theorem loadPlugins_resolution_abort_witness :
    loadPlugins satisfiesSpec stubLoader [cexSelf] ⟨⟨[]⟩, []⟩ =
      ([], ⟨⟨[]⟩, []⟩,
        .error (.sortError (.circularDependency ["self-a", "self-a"]))) :=
  loadPlugins_resolution_abort satisfiesSpec stubLoader [cexSelf] ⟨⟨[]⟩, []⟩
    (.circularDependency ["self-a", "self-a"]) (by decide)


theorem find?_filter_self_none {α : Type} (l : List (String × α)) (id : String) :
    (l.filter (fun e => decide (¬ e.1 = id))).find? (fun e => e.1 == id) = none := by
  rw [List.find?_eq_none]
  intro x hx
  have hmem := List.of_mem_filter hx
  have hne : ¬ x.1 = id := by simpa using hmem
  simp [beq_iff_eq, hne]

theorem hasPlugin_unregister_self {ctx : DefaultPluginContext} {id : String} :
    DefaultPluginContext.hasPlugin (ctx.unregister id).2 id = false := by
  unfold DefaultPluginContext.unregister
  cases hge : ctx.getEntry id with
  | none =>
    unfold DefaultPluginContext.getEntry at hge
    unfold DefaultPluginContext.hasPlugin
    rcases Option.map_eq_none.mp hge with hnone
    simp [hnone]
  | some entry =>
    unfold DefaultPluginContext.hasPlugin
    simp only
    rw [find?_filter_self_none]
    rfl

theorem mapLookup_mapDelete_self {α : Type} (l : List (String × α)) (id : String) :
    mapLookup (mapDelete l id) id = none := by
  unfold mapLookup mapDelete
  rw [find?_filter_self_none]
  rfl

/-- C9: `reloadPlugin` is not atomic on a missing manifest: with the plugin
loaded and its `onUnload` completing, if re-discovery of the stored directory
yields nothing, the call throws `ManifestNotFound(id, dir)` *after* the unload
has already run — the hook fired, the id is no longer registered, the stored
manifest entry is gone, and the previous instance is not restored. -/
theorem reloadPlugin_manifest_missing (loader : Loader) (discover : Discover)
    (id : String) (st : ManagerState) (m : Manifest) (pl : LibriaPlugin)
    (hman : mapLookup st.manifests id = some m)
    (hinst : st.context.getPluginInstance id = some pl)
    (hhook : pl.onUnload = some (.ok ()))
    (hdisc : discover m.__dir = []) :
    ∃ st', reloadPlugin loader discover id st =
        ([.onUnloadCalled id], st', .error (.manifestNotFound id m.__dir)) ∧
      st'.context.hasPlugin id = false ∧ mapLookup st'.manifests id = none := by
  have hunload : unloadSinglePlugin id st = ([.onUnloadCalled id],
      ⟨(st.context.unregister id).2, mapDelete st.manifests id⟩, .ok ()) := by
    unfold unloadSinglePlugin
    rw [hinst]
    simp only [hhook]
    rfl
  refine ⟨⟨(st.context.unregister id).2, mapDelete st.manifests id⟩, ?_, ?_, ?_⟩
  · simp only [reloadPlugin, hman, hunload, hdisc]
  · exact hasPlugin_unregister_self
  · exact mapLookup_mapDelete_self st.manifests id

def reloadManifest : Manifest := { id := "r", version := "1.0.0", __dir := "/r" }
def reloadPluginInst : LibriaPlugin := { api := "r-api", onUnload := some (.ok ()) }
def reloadMetadata : PluginMetadata := manifestToMetadata reloadManifest
def reloadSt : ManagerState :=
  ⟨⟨[("r", ⟨reloadPluginInst, reloadMetadata⟩)]⟩, [("r", reloadManifest)]⟩

theorem reloadPlugin_manifest_missing_witness :
    ∃ st', reloadPlugin stubLoader (fun _ => []) "r" reloadSt =
        ([.onUnloadCalled "r"], st',
          .error (.manifestNotFound "r" reloadManifest.__dir)) ∧
      st'.context.hasPlugin "r" = false ∧ mapLookup st'.manifests "r" = none :=
  reloadPlugin_manifest_missing stubLoader (fun _ => []) "r" reloadSt
    reloadManifest reloadPluginInst (by decide) (by decide) (by decide) rfl

/-- C10: when a plugin's own `onLoad` hook throws during a batch, the error
aborts the batch but the plugin itself stays registered and its manifest stays
recorded — registration and bookkeeping happen before the hook runs, and no
later descriptor of the batch is processed. -/
theorem loadPlugins_onLoad_failure_keeps_registration
    (sat : String → String → Bool) (loader : Loader) (ms rest : List Manifest)
    (m : Manifest) (st : ManagerState) (factory : PluginFactory)
    (plugin : LibriaPlugin) (msg : String)
    (hsort : topologicalSort sat ms = .ok (m :: rest))
    (hload : loader m = .ok factory)
    (hcreate : factory.create = .ok plugin)
    (hhook : plugin.onLoad = some (.error msg))
    (hfree : st.context.hasPlugin m.id = false) :
    ∃ ctx', loadPlugins sat loader ms st =
        ([.created m.id, .registered m.id, .onLoadCalled m.id],
          ⟨ctx', mapSet st.manifests m.id m⟩, .error (.hookFailure msg)) ∧
      DefaultPluginContext.hasPlugin ctx' m.id = true := by
  have hsingle : loadSinglePlugin loader m st =
      ([.created m.id, .registered m.id, .onLoadCalled m.id],
        ⟨⟨st.context.plugins ++ [(m.id, ⟨plugin, manifestToMetadata m⟩)]⟩,
          mapSet st.manifests m.id m⟩, .error (.hookFailure msg)) := by
    simp only [loadSinglePlugin, hload, hcreate, register_of_absent hfree, hhook]
    rfl
  refine ⟨⟨st.context.plugins ++ [(m.id, ⟨plugin, manifestToMetadata m⟩)]⟩, ?_, ?_⟩
  · unfold loadPlugins
    rw [hsort]
    simp only [loadSeq]
    rw [hsingle]
  · exact hasPlugin_append_self st.context m.id ⟨plugin, manifestToMetadata m⟩

def boomFactory : PluginFactory :=
  { id := "boom", pluginType := "test",
    create := .ok { api := "boom-api", onLoad := some (.error "onload-boom") } }
def boomLoader : Loader := fun _ => .ok boomFactory
def boomManifest : Manifest := { id := "boom", version := "1.0.0" }

theorem loadPlugins_onLoad_failure_witness :
    ∃ ctx', loadPlugins satisfiesSpec boomLoader [boomManifest] ⟨⟨[]⟩, []⟩ =
        ([.created "boom", .registered "boom", .onLoadCalled "boom"],
          ⟨ctx', mapSet [] "boom" boomManifest⟩,
          .error (.hookFailure "onload-boom")) ∧
      DefaultPluginContext.hasPlugin ctx' "boom" = true :=
  loadPlugins_onLoad_failure_keeps_registration satisfiesSpec boomLoader
    [boomManifest] [] boomManifest ⟨⟨[]⟩, []⟩ boomFactory
    { api := "boom-api", onLoad := some (.error "onload-boom") } "onload-boom"
    (by decide) rfl rfl rfl (by decide)


theorem unloadSinglePlugin_hook_ok {id : String} {st : ManagerState}
    {pl : LibriaPlugin} (hinst : st.context.getPluginInstance id = some pl)
    (hhook : pl.onUnload = some (.ok ())) :
    unloadSinglePlugin id st = ([.onUnloadCalled id],
      ⟨(st.context.unregister id).2, mapDelete st.manifests id⟩, .ok ()) := by
  unfold unloadSinglePlugin
  rw [hinst]
  simp only [hhook]
  rfl

theorem find?_filter_ne {α : Type} (l : List (String × α)) {id j : String}
    (h : j ≠ id) :
    (l.filter (fun x => decide (¬ x.1 = id))).find? (fun e => e.1 == j) =
      l.find? (fun e => e.1 == j) := by
  induction l with
  | nil => rfl
  | cons a l ih =>
    by_cases ha : a.1 = id
    · have hpa : (decide (¬ a.1 = id)) = false := by simp [ha]
      have haj : (a.1 == j) = false := beq_eq_false_iff_ne.mpr (by
        intro heq
        exact h (by rw [← heq, ha]))
      rw [List.filter_cons]
      simp only [hpa, Bool.false_eq_true, if_false]
      rw [List.find?_cons]
      simp only [haj]
      exact ih
    · have hpa : (decide (¬ a.1 = id)) = true := by simp [ha]
      rw [List.filter_cons]
      simp only [hpa, if_true]
      rw [List.find?_cons, List.find?_cons]
      cases haj : (a.1 == j) with
      | true => rfl
      | false => exact ih

theorem getPluginInstance_filter_ne {ctx : DefaultPluginContext} {id j : String}
    (h : j ≠ id) :
    DefaultPluginContext.getPluginInstance
        ⟨ctx.plugins.filter (fun x => decide (¬ x.1 = id))⟩ j =
      ctx.getPluginInstance j := by
  unfold DefaultPluginContext.getPluginInstance DefaultPluginContext.getEntry
  rw [find?_filter_ne ctx.plugins h]

theorem filter_filter_notMem {α : Type} (l : List (String × α)) (id : String)
    (rest : List String) :
    (l.filter (fun x => decide (¬ x.1 = id))).filter
        (fun x => decide (x.1 ∉ rest)) =
      l.filter (fun x => decide (x.1 ∉ id :: rest)) := by
  rw [List.filter_filter]
  apply List.filter_congr
  intro x _
  by_cases h1 : x.1 = id <;> by_cases h2 : x.1 ∈ rest <;> simp [h1, h2]

/-- The unload loop on a duplicate-free id snapshot whose instances all carry a
completing `onUnload` hook: it fires the hooks in snapshot order and removes
exactly those ids from the registry and the manifest map. -/
theorem unloadSeq_all_ok : ∀ (ids : List String) (st : ManagerState),
    ids.Nodup →
    (∀ id ∈ ids, (st.context.getPluginInstance id).map (fun pl => pl.onUnload) =
      some (some (.ok ()))) →
    unloadSeq ids st = (ids.map Event.onUnloadCalled,
      ⟨⟨st.context.plugins.filter (fun x => decide (x.1 ∉ ids))⟩,
        st.manifests.filter (fun x => decide (x.1 ∉ ids))⟩, .ok ()) := by
  intro ids
  induction ids with
  | nil =>
    intro st _ _
    have hf : ∀ {β : Type} (l : List (String × β)),
        l.filter (fun x => decide (x.1 ∉ ([] : List String))) = l := by
      intro β l
      apply List.filter_eq_self.mpr
      intro a _
      simp
    rw [unloadSeq, hf, hf]
    rfl
  | cons id rest ih =>
    intro st hnd hok
    rcases List.nodup_cons.mp hnd with ⟨hnotin, hnd'⟩
    have h0 := hok id (List.mem_cons_self id rest)
    cases hinst : st.context.getPluginInstance id with
    | none => rw [hinst] at h0; simp at h0
    | some pl =>
      rw [hinst] at h0
      have hhook : pl.onUnload = some (.ok ()) := by
        simp only [Option.map_some'] at h0
        injection h0
      have hsingle := unloadSinglePlugin_hook_ok hinst hhook
      have hge : ∃ e, st.context.getEntry id = some e := by
        unfold DefaultPluginContext.getPluginInstance at hinst
        cases hgee : st.context.getEntry id with
        | none => rw [hgee] at hinst; simp at hinst
        | some e => exact ⟨e, rfl⟩
      rcases hge with ⟨e, hge⟩
      have hctx : (st.context.unregister id).2 =
          ⟨st.context.plugins.filter (fun x => decide (¬ x.1 = id))⟩ := by
        unfold DefaultPluginContext.unregister
        rw [hge]
      have hok1 : ∀ j ∈ rest,
          ((⟨(st.context.unregister id).2, mapDelete st.manifests id⟩ :
            ManagerState).context.getPluginInstance j).map (fun pl => pl.onUnload) =
            some (some (.ok ())) := by
        intro j hj
        have hjne : j ≠ id := fun hc => hnotin (hc ▸ hj)
        have heq : (⟨(st.context.unregister id).2, mapDelete st.manifests id⟩ :
            ManagerState).context.getPluginInstance j =
            st.context.getPluginInstance j := by
          show DefaultPluginContext.getPluginInstance (st.context.unregister id).2 j = _
          rw [hctx]
          exact getPluginInstance_filter_ne hjne
        rw [heq]
        exact hok j (List.mem_cons_of_mem _ hj)
      have hrec := ih ⟨(st.context.unregister id).2, mapDelete st.manifests id⟩
        hnd' hok1
      simp only [unloadSeq]
      rw [hsingle]
      simp only
      rw [hrec]
      refine congrArg₂ Prod.mk (by simp) (congrArg₂ Prod.mk ?_ rfl)
      have hplug : (⟨(st.context.unregister id).2, mapDelete st.manifests id⟩ :
          ManagerState).context.plugins =
          st.context.plugins.filter (fun x => decide (¬ x.1 = id)) := by
        show ((st.context.unregister id).2).plugins = _
        rw [hctx]
      have hman : (⟨(st.context.unregister id).2, mapDelete st.manifests id⟩ :
          ManagerState).manifests =
          st.manifests.filter (fun x => decide (¬ x.1 = id)) := rfl
      rw [hplug, hman, filter_filter_notMem, filter_filter_notMem]


/-- C4 (amended): `shutdown` unloads every currently loaded id in the reverse
of its load (manifest-insertion) order, running each plugin's `onUnload` hook
in that order and emptying the registry — but the unloads are **not**
failure-isolated: as soon as one unload throws, the error propagates and the
remaining (earlier-loaded) plugins' unloads are not attempted. -/
theorem shutdown_reverse_order (st : ManagerState)
    (hnd : (st.manifests.map Prod.fst).Nodup)
    (hok : ∀ id ∈ st.manifests.map Prod.fst,
      (st.context.getPluginInstance id).map (fun pl => pl.onUnload) =
        some (some (.ok ())))
    (hcover : ∀ e ∈ st.context.plugins, e.1 ∈ st.manifests.map Prod.fst) :
    shutdown st = ((st.manifests.map Prod.fst).reverse.map Event.onUnloadCalled,
      ⟨⟨[]⟩, []⟩, .ok ()) ∧
    (∀ (id : String) (rest : List String) (st0 : ManagerState) (tr : List Event)
      (st1 : ManagerState) (e : PluginError),
      unloadSinglePlugin id st0 = (tr, st1, .error e) →
      unloadSeq (id :: rest) st0 = (tr, st1, .error e)) := by
  constructor
  · unfold shutdown
    rw [unloadSeq_all_ok (st.manifests.map Prod.fst).reverse st
      (List.nodup_reverse.mpr hnd)
      (fun id hid => hok id (List.mem_reverse.mp hid))]
    have h1 : st.context.plugins.filter
        (fun x => decide (x.1 ∉ (st.manifests.map Prod.fst).reverse)) = [] := by
      apply List.filter_eq_nil_iff.mpr
      intro a ha
      simp only [decide_eq_true_eq, List.mem_reverse]
      intro hcontra
      exact hcontra (hcover a ha)
    have h2 : st.manifests.filter
        (fun x => decide (x.1 ∉ (st.manifests.map Prod.fst).reverse)) = [] := by
      apply List.filter_eq_nil_iff.mpr
      intro a ha
      simp only [decide_eq_true_eq, List.mem_reverse]
      intro hcontra
      exact hcontra (List.mem_map_of_mem Prod.fst ha)
    rw [h1, h2]
  · intro id rest st0 tr st1 e h
    simp [unloadSeq, h]

def shutManifest1 : Manifest := { id := "p1", version := "1.0.0", __dir := "/p1" }
def shutManifest2 : Manifest := { id := "p2", version := "1.0.0", __dir := "/p2" }
def shutOkSt : ManagerState :=
  ⟨⟨[("p1", ⟨{ api := "a1", onUnload := some (.ok ()) },
        manifestToMetadata shutManifest1⟩),
     ("p2", ⟨{ api := "a2", onUnload := some (.ok ()) },
        manifestToMetadata shutManifest2⟩)]⟩,
   [("p1", shutManifest1), ("p2", shutManifest2)]⟩

theorem shutdown_reverse_order_witness :
    shutdown shutOkSt =
      ((shutOkSt.manifests.map Prod.fst).reverse.map Event.onUnloadCalled,
        ⟨⟨[]⟩, []⟩, .ok ()) ∧
    (∀ (id : String) (rest : List String) (st0 : ManagerState) (tr : List Event)
      (st1 : ManagerState) (e : PluginError),
      unloadSinglePlugin id st0 = (tr, st1, .error e) →
      unloadSeq (id :: rest) st0 = (tr, st1, .error e)) :=
  shutdown_reverse_order shutOkSt (by decide) (by decide) (by decide)

def shutBoomSt : ManagerState :=
  ⟨⟨[("p1", ⟨{ api := "a1", onUnload := some (.ok ()) },
        manifestToMetadata shutManifest1⟩),
     ("p2", ⟨{ api := "a2", onUnload := some (.error "unload-boom") },
        manifestToMetadata shutManifest2⟩)]⟩,
   [("p1", shutManifest1), ("p2", shutManifest2)]⟩

/-- C4 counterexample: with `p1` loaded before `p2` and `p2`'s `onUnload`
throwing, `shutdown` stops at the very first unload: it returns `p2`'s hook
failure, fires no further hook (`p1`'s `onUnload` event is absent), and leaves
both plugins registered — the failure does prevent the remaining unloads. -/
theorem shutdown_not_independent_cex :
    shutdown shutBoomSt =
      ([.onUnloadCalled "p2"], shutBoomSt, .error (.hookFailure "unload-boom")) ∧
    shutBoomSt.context.hasPlugin "p1" = true ∧
    Event.onUnloadCalled "p1" ∉ (shutdown shutBoomSt).1 := by
  refine ⟨by decide, by decide, by decide⟩


theorem hasPlugin_append_mono {ctx : DefaultPluginContext} {j : String}
    (x : String × RegisteredPlugin) (h : ctx.hasPlugin j = true) :
    DefaultPluginContext.hasPlugin ⟨ctx.plugins ++ [x]⟩ j = true := by
  unfold DefaultPluginContext.hasPlugin at h ⊢
  rw [List.find?_append]
  rcases Option.isSome_iff_exists.mp h with ⟨e, he⟩
  rw [he]
  rfl

/-- The per-descriptor event block of a successful load: `create`, `register`,
then `onLoad` when the instance declares the hook. -/
def loadEvents (plOf : Manifest → LibriaPlugin) (m : Manifest) : List Event :=
  [.created m.id, .registered m.id] ++
    (match (plOf m).onLoad with
     | some _ => [.onLoadCalled m.id]
     | none => [])

theorem loadSinglePlugin_ok {loader : Loader} {m : Manifest} {st : ManagerState}
    {factory : PluginFactory} {plugin : LibriaPlugin}
    (hload : loader m = .ok factory) (hcreate : factory.create = .ok plugin)
    (hhook : plugin.onLoad = none ∨ plugin.onLoad = some (.ok ()))
    (hfree : st.context.hasPlugin m.id = false) :
    loadSinglePlugin loader m st =
      ([.created m.id, .registered m.id] ++
        (match plugin.onLoad with
         | some _ => [.onLoadCalled m.id]
         | none => []),
       ⟨⟨st.context.plugins ++ [(m.id, ⟨plugin, manifestToMetadata m⟩)]⟩,
         mapSet st.manifests m.id m⟩, .ok ()) := by
  rcases hhook with h | h
  · simp only [loadSinglePlugin, hload, hcreate, register_of_absent hfree, h]
    rfl
  · simp only [loadSinglePlugin, hload, hcreate, register_of_absent hfree, h]
    rfl

theorem loadSeq_all_ok (loader : Loader) (plOf : Manifest → LibriaPlugin) :
    ∀ (ms : List Manifest) (st : ManagerState),
    (∀ m ∈ ms, ∃ f, loader m = .ok f ∧ f.create = .ok (plOf m) ∧
      ((plOf m).onLoad = none ∨ (plOf m).onLoad = some (.ok ()))) →
    (∀ m ∈ ms, st.context.hasPlugin m.id = false) →
    (ms.map (fun m => m.id)).Nodup →
    ∃ st', loadSeq loader ms st = (ms.flatMap (loadEvents plOf), st', .ok ()) ∧
      (∀ m ∈ ms, st'.context.hasPlugin m.id = true) ∧
      (∀ j, st.context.hasPlugin j = true → st'.context.hasPlugin j = true) := by
  intro ms
  induction ms with
  | nil =>
    intro st _ _ _
    exact ⟨st, by simp [loadSeq], by simp, fun j h => h⟩
  | cons m rest ih =>
    intro st hload hfree hnd
    rcases hload m (List.mem_cons_self m rest) with ⟨f, hf, hc, hh⟩
    have hsingle := loadSinglePlugin_ok hf hc hh (hfree m (List.mem_cons_self m rest))
    have hnd2 : m.id ∉ rest.map (fun x => x.id) ∧
        (rest.map (fun x => x.id)).Nodup := by
      rw [List.map_cons, List.nodup_cons] at hnd
      exact hnd
    rcases hnd2 with ⟨hnotin, hnd'⟩
    have hfree1 : ∀ m' ∈ rest,
        DefaultPluginContext.hasPlugin
          ⟨st.context.plugins ++ [(m.id, ⟨plOf m, manifestToMetadata m⟩)]⟩ m'.id =
          false := by
      intro m' hm'
      have hne : m'.id ≠ m.id := fun hc2 =>
        hnotin (hc2 ▸ List.mem_map_of_mem (fun x => x.id) hm')
      rw [hasPlugin_append_ne _ hne]
      exact hfree m' (List.mem_cons_of_mem _ hm')
    rcases ih ⟨⟨st.context.plugins ++ [(m.id, ⟨plOf m, manifestToMetadata m⟩)]⟩,
        mapSet st.manifests m.id m⟩
      (fun m' h => hload m' (List.mem_cons_of_mem _ h)) hfree1 hnd' with
      ⟨st', hrun, hall, hmono⟩
    refine ⟨st', ?_, ?_, ?_⟩
    · simp only [loadSeq]
      rw [hsingle]
      simp only
      rw [hrun]
      simp [loadEvents, List.flatMap_cons]
    · intro m' hm'
      rcases List.mem_cons.mp hm' with rfl | h
      · exact hmono m'.id (hasPlugin_append_self st.context m'.id
          ⟨plOf m', manifestToMetadata m'⟩)
      · exact hall m' h
    · intro j hj
      exact hmono j (hasPlugin_append_mono _ hj)

def chW_A : Manifest :=
  { id := "wa", version := "1.0.0", dependencies := [⟨"wb", "*"⟩] }
def chW_B : Manifest :=
  { id := "wb", version := "1.0.0", dependencies := [⟨"wc", "*"⟩] }
def chW_C : Manifest := { id := "wc", version := "1.0.0" }
def chainPluginOf : Manifest → LibriaPlugin :=
  fun m => { api := m.id, onLoad := some (.ok ()) }
def chainLoader : Loader :=
  fun m => .ok { id := m.id, pluginType := m.pluginType,
                 create := .ok (chainPluginOf m) }

/-- Does an event record an `onLoad` invocation? -/
def isOnLoadEvent : Event → Bool
  | .onLoadCalled _ => true
  | _ => false

/-- C6: within one `loadPlugins` batch the trace is exactly the concatenation,
over the resolver's sorted output in order, of `create`, `register`, then the
awaited `onLoad` (when declared) — so each descriptor's `onLoad` completes
before the next descriptor begins; the sorted order places every dependency
strictly before its dependent, hence every plugin's `create` event comes after
the `register` events of all its resolved dependencies; for the chain
`wa→wb→wc` the `onLoad` hooks fire in the order `wc`, `wb`, `wa`. -/
theorem loadPlugins_order (sat : String → String → Bool) (loader : Loader)
    (ms sorted : List Manifest) (st : ManagerState)
    (plOf : Manifest → LibriaPlugin)
    (hsort : topologicalSort sat ms = .ok sorted)
    (hload : ∀ m ∈ sorted, ∃ f, loader m = .ok f ∧ f.create = .ok (plOf m) ∧
      ((plOf m).onLoad = none ∨ (plOf m).onLoad = some (.ok ())))
    (hfree : ∀ m ∈ sorted, st.context.hasPlugin m.id = false) :
    (∃ st', loadPlugins sat loader ms st =
        (sorted.flatMap (loadEvents plOf), st', .ok ()) ∧
      (∀ m ∈ sorted, st'.context.hasPlugin m.id = true) ∧
      (∀ i, ∀ hi : i < sorted.length, ∀ d ∈ sorted[i].dependencies,
        ∃ j, ∃ hj : j < sorted.length, j < i ∧ sorted[j].id = d.id) ∧
      (∀ i, ∀ hi : i < sorted.length, ∀ d ∈ sorted[i].dependencies,
        ∃ pre post, sorted.flatMap (loadEvents plOf) =
          pre ++ .created (sorted[i]).id :: post ∧ .registered d.id ∈ pre)) ∧
    ((loadPlugins satisfiesSpec chainLoader [chW_A, chW_B, chW_C]
        ⟨⟨[]⟩, []⟩).1.filter isOnLoadEvent =
      [.onLoadCalled "wc", .onLoadCalled "wb", .onLoadCalled "wa"]) := by
  refine ⟨?_, by decide⟩
  have hnd : (sorted.map (fun m => m.id)).Nodup := (topologicalSort_ok_props hsort).1
  have hclosed : ∀ i, ∀ hi : i < sorted.length, ∀ d ∈ sorted[i].dependencies,
      ∃ j, ∃ hj : j < sorted.length, j < i ∧ sorted[j].id = d.id := by
    rcases topologicalSort_ok_state hsort with ⟨stf, g, hout, _⟩
    subst hout
    exact g.closed
  rcases loadSeq_all_ok loader plOf sorted st hload hfree hnd with
    ⟨st', hrun, hall, _⟩
  refine ⟨st', ?_, hall, hclosed, ?_⟩
  · unfold loadPlugins
    rw [hsort]
    exact hrun
  · intro i hi d hd
    rcases hclosed i hi d hd with ⟨j, hj, hji, hjid⟩
    have hdecomp : sorted = sorted.take i ++ sorted[i] :: sorted.drop (i + 1) := by
      conv_lhs => rw [← List.take_append_drop i sorted]
      rw [List.drop_eq_getElem_cons hi]
    have htrace : sorted.flatMap (loadEvents plOf) =
        (sorted.take i).flatMap (loadEvents plOf) ++
          (loadEvents plOf sorted[i] ++
            (sorted.drop (i + 1)).flatMap (loadEvents plOf)) := by
      conv_lhs => rw [hdecomp]
      rw [List.flatMap_append, List.flatMap_cons]
    refine ⟨(sorted.take i).flatMap (loadEvents plOf),
      .registered (sorted[i]).id ::
        ((match (plOf sorted[i]).onLoad with
          | some _ => [.onLoadCalled (sorted[i]).id]
          | none => []) ++ (sorted.drop (i + 1)).flatMap (loadEvents plOf)),
      ?_, ?_⟩
    · rw [htrace]
      simp [loadEvents]
    · apply List.mem_flatMap.mpr
      have hjtake : j < (sorted.take i).length := by
        simp only [List.length_take]
        omega
      have hgt : (sorted.take i)[j] = sorted[j] := List.getElem_take sorted
      refine ⟨(sorted.take i)[j], List.getElem_mem hjtake, ?_⟩
      rw [hgt]
      simp [loadEvents, hjid]

theorem loadPlugins_order_witness :
    (∃ st', loadPlugins satisfiesSpec chainLoader [chW_A, chW_B, chW_C] ⟨⟨[]⟩, []⟩ =
        (([chW_C, chW_B, chW_A] : List Manifest).flatMap (loadEvents chainPluginOf),
          st', .ok ()) ∧
      (∀ m ∈ ([chW_C, chW_B, chW_A] : List Manifest),
        st'.context.hasPlugin m.id = true) ∧
      (∀ i, ∀ hi : i < ([chW_C, chW_B, chW_A] : List Manifest).length,
        ∀ d ∈ (([chW_C, chW_B, chW_A] : List Manifest)[i]).dependencies,
        ∃ j, ∃ hj : j < ([chW_C, chW_B, chW_A] : List Manifest).length, j < i ∧
          (([chW_C, chW_B, chW_A] : List Manifest)[j]).id = d.id) ∧
      (∀ i, ∀ hi : i < ([chW_C, chW_B, chW_A] : List Manifest).length,
        ∀ d ∈ (([chW_C, chW_B, chW_A] : List Manifest)[i]).dependencies,
        ∃ pre post,
          ([chW_C, chW_B, chW_A] : List Manifest).flatMap (loadEvents chainPluginOf) =
            pre ++ .created (([chW_C, chW_B, chW_A] : List Manifest)[i]).id :: post ∧
          .registered d.id ∈ pre)) ∧
    ((loadPlugins satisfiesSpec chainLoader [chW_A, chW_B, chW_C]
        ⟨⟨[]⟩, []⟩).1.filter isOnLoadEvent =
      [.onLoadCalled "wc", .onLoadCalled "wb", .onLoadCalled "wa"]) :=
  loadPlugins_order satisfiesSpec chainLoader [chW_A, chW_B, chW_C]
    [chW_C, chW_B, chW_A] ⟨⟨[]⟩, []⟩ chainPluginOf (by decide)
    (fun m _ => ⟨_, rfl, rfl, Or.inr rfl⟩) (by decide)

end PluginLoader
